import Mathlib

/-
Verification of the image-cropper program.

The program trims fully transparent borders from an image
(crop_transparent_edges), then clamps the width/height ratio into the
envelope [2/5, 5/2] (crop_to_aspect_ratio), and a batch driver
(process_directory) applies the two-stage pipeline per file with
per-item fault isolation.

The embedding below models:
- a pixel buffer as a width, a height, and an alpha function;
- the four bounding-box scans exactly as the source loops perform them
  (forward scan with early exit, backward scan with early exit, column
  scans restricted to the detected row band);
- the f32 arithmetic of crop_to_aspect_ratio exactly: every binary32
  value the program produces is finite and is represented exactly by an
  integer significand and a power-of-two scale; rounding to nearest
  with ties to even onto the 24-bit significand is performed explicitly
  on integers, so the model is executable by the kernel.  All rounded
  quantities are normal, positive and far below overflow; the one
  exception is a division by a zero height, whose IEEE outcome
  (infinity, or NaN with all comparisons false) is mirrored by an
  explicit case split;
- the u32 subtractions `width - new_width` and `height - new_height`,
  which panic on underflow, by an Option result (none = panic);
- the u32 cast of an f32 value as truncation with saturation.
-/

namespace ImageCropper

/-- A decoded pixel buffer: dimensions plus the alpha channel
(`alpha x y` is the alpha value of the pixel in column x, row y). -/
structure Img where
  width : ℕ
  height : ℕ
  alpha : ℕ → ℕ → ℕ

/-- A bounding rectangle, half open on right/bottom. -/
structure Rect where
  left : ℕ
  top : ℕ
  right : ℕ
  bottom : ℕ
  deriving DecidableEq

/-- Does p hold somewhere below n (the inner loops of the scans). -/
def anyBelow (p : ℕ → Bool) : ℕ → Bool
  | 0 => false
  | n + 1 => anyBelow p n || p n

/-- First index below n satisfying p (forward scan with early exit). -/
def findBelow (p : ℕ → Bool) : ℕ → Option ℕ
  | 0 => none
  | n + 1 =>
    match findBelow p n with
    | some m => some m
    | none => if p n then some n else none

/-- Last index below n satisfying p (backward scan with early exit). -/
def findLastBelow (p : ℕ → Bool) : ℕ → Option ℕ
  | 0 => none
  | n + 1 => if p n then some n else findLastBelow p n

/-- Row y contains a pixel with nonzero alpha. -/
def rowHas (img : Img) (y : ℕ) : Bool :=
  anyBelow (fun x => img.alpha x y != 0) img.width

/-- The `top` computed by the first scan of crop_transparent_edges
(defaults to 0 when no row has content). -/
def bboxTop (img : Img) : ℕ := (findBelow (rowHas img) img.height).getD 0

/-- The `bottom` computed by the second scan (one past the last row with
content; defaults to the full height). -/
def bboxBottom (img : Img) : ℕ :=
  match findLastBelow (rowHas img) img.height with
  | some y => y + 1
  | none => img.height

/-- Column x contains a pixel with nonzero alpha within the row band
[top, bottom) found by the first two scans. -/
def colHas (img : Img) (x : ℕ) : Bool :=
  anyBelow (fun d => img.alpha x (bboxTop img + d) != 0) (bboxBottom img - bboxTop img)

/-- The `left` computed by the third scan of crop_transparent_edges. -/
def bboxLeft (img : Img) : ℕ := (findBelow (colHas img) img.width).getD 0

/-- The `right` computed by the fourth scan (one past the last column
with content in the band; defaults to the full width). -/
def bboxRight (img : Img) : ℕ :=
  match findLastBelow (colHas img) img.width with
  | some x => x + 1
  | none => img.width

/-- The rectangle computed by crop_transparent_edges. -/
def bboxRect (img : Img) : Rect :=
  ⟨bboxLeft img, bboxTop img, bboxRight img, bboxBottom img⟩

/-- Modelled from the spec: the crop operation of the external image
codec collaborator, which the source calls as crop_imm; spec section 4.3
describes it as extracting the pixel subrectangle.  The rectangles the
program passes to it always lie within bounds. -/
def crop (img : Img) (l t w h : ℕ) : Img :=
  ⟨w, h, fun x y => img.alpha (l + x) (t + y)⟩

/-- The first pipeline stage of the source (lines 74-122). -/
def crop_transparent_edges (img : Img) : Img :=
  crop img (bboxLeft img) (bboxTop img)
    (bboxRight img - bboxLeft img) (bboxBottom img - bboxTop img)

/-- A nonnegative finite binary32 value, represented exactly: the value
is m * 2 ^ k.  Every f32 value the program manipulates has this form. -/
structure F32 where
  m : ℕ
  k : ℤ
  deriving DecidableEq

/-- The rational value denoted by an F32. -/
def F32.toRat (x : F32) : ℚ := (x.m : ℚ) * (2 : ℚ) ^ x.k

/-- Exact comparison of two represented f32 values (IEEE comparison of
finite floats is comparison of the reals they denote). -/
def F32.lt (x y : F32) : Prop :=
  x.m * 2 ^ (x.k - y.k).toNat < y.m * 2 ^ (y.k - x.k).toNat

instance (x y : F32) : Decidable (F32.lt x y) :=
  inferInstanceAs (Decidable (x.m * 2 ^ (x.k - y.k).toNat < y.m * 2 ^ (y.k - x.k).toNat))

/-- Round the fraction c / d (with d positive) to the nearest integer,
ties to even. -/
def rneFrac (c d : ℕ) : ℕ :=
  if 2 * (c % d) < d then c / d
  else if d < 2 * (c % d) then c / d + 1
  else if c / d % 2 = 0 then c / d else c / d + 1

/-- Fuel-bounded binade search, upper half: for b ≤ a, the largest e
with b * 2 ^ e ≤ a (fuel permitting). -/
def eUpN : ℕ → ℕ → ℕ → ℕ
  | 0, _, _ => 0
  | f + 1, a, b => if a < 2 * b then 0 else eUpN f a (2 * b) + 1

/-- Fuel-bounded binade search, lower half: for a < b, the least j with
b ≤ a * 2 ^ j (fuel permitting). -/
def eDownN : ℕ → ℕ → ℕ → ℕ
  | 0, _, _ => 0
  | f + 1, a, b => if b ≤ a then 0 else eDownN f (2 * a) b + 1

/-- The binade exponent of the positive fraction a / b:
2 ^ (fExp a b) ≤ a / b < 2 ^ (fExp a b + 1). -/
def fExp (a b : ℕ) : ℤ :=
  if b ≤ a then (eUpN 128 a b : ℤ) else -(eDownN 128 a b : ℤ)

/-- Round the fraction a / b at binade e: scale into the 24-bit
significand range and round to an integer significand. -/
def roundAt (a b : ℕ) (e : ℤ) : F32 :=
  ⟨rneFrac (a * 2 ^ (23 - e).toNat) (b * 2 ^ (e - 23).toNat), e - 23⟩

/-- Round the positive fraction a / b to the nearest binary32 value
(round to nearest, ties to even).  This is the correctly rounded result
of any f32 operation whose exact value is a / b. -/
def roundPosRat (a b : ℕ) : F32 := roundAt a b (fExp a b)

/-- The `as f32` conversion of a u32. -/
def u32ToF32 (n : ℕ) : F32 := roundPosRat n 1

/-- Correctly rounded f32 division of represented values. -/
def f32div (x y : F32) : F32 :=
  roundPosRat (x.m * 2 ^ (x.k - y.k).toNat) (y.m * 2 ^ (y.k - x.k).toNat)

/-- Correctly rounded f32 multiplication of represented values. -/
def f32mul (x y : F32) : F32 :=
  roundPosRat (x.m * y.m * 2 ^ (x.k + y.k).toNat) (2 ^ (-(x.k + y.k)).toNat)

/-- The `as u32` conversion of a (nonnegative) f32: truncation toward
zero, saturating at u32::MAX. -/
def f32ToU32 (x : F32) : ℕ :=
  min (if 0 ≤ x.k then x.m * 2 ^ x.k.toNat else x.m / 2 ^ (-x.k).toNat) (2 ^ 32 - 1)

/-- The constant 2.0 / 5.0 evaluated in f32 (the source's min_aspect). -/
def minAspect : F32 := f32div (u32ToF32 2) (u32ToF32 5)

/-- The constant 5.0 / 2.0 evaluated in f32 (the source's max_aspect). -/
def maxAspect : F32 := f32div (u32ToF32 5) (u32ToF32 2)

/-- The second pipeline stage of the source (lines 124-143).  The result
is none exactly when a u32 subtraction in the source underflows (a
panic).  A zero height with a positive width makes the source's ratio
+infinity, which exceeds max_aspect, and a zero height with zero width
makes it NaN, whose comparisons are all false; the outer case split
mirrors those IEEE outcomes, every other ratio being finite. -/
def crop_to_aspect_ratio (img : Img) : Option Img :=
  let w := img.width
  let h := img.height
  if h = 0 then
    if 0 < w then
      let nh := f32ToU32 (f32div (u32ToF32 w) maxAspect)
      if nh ≤ h then some (crop img 0 ((h - nh) / 2) w nh) else none
    else some img
  else
    let ratio := f32div (u32ToF32 w) (u32ToF32 h)
    if F32.lt ratio minAspect then
      let nw := f32ToU32 (f32mul (u32ToF32 h) minAspect)
      if nw ≤ w then some (crop img ((w - nw) / 2) 0 nw h) else none
    else if F32.lt maxAspect ratio then
      let nh := f32ToU32 (f32div (u32ToF32 w) maxAspect)
      if nh ≤ h then some (crop img 0 ((h - nh) / 2) w nh) else none
    else some img

/-- The transform applied per file by process_file (lines 64-65): trim
transparent edges, then clamp the aspect ratio. -/
def pipelineModel (img : Img) : Option Img :=
  crop_to_aspect_ratio (crop_transparent_edges img)

/-- The message printed by process_directory for a failed item. -/
def report (p e : String) : String :=
  "Failed to process file " ++ p ++ ": " ++ e

/-- The driver loop of process_directory (lines 48-60): each work item
is a path together with the outcome its process_file call produced (the
decode / transform / encode effects being external); a failed item is
reported and the loop continues; the function itself returns Ok. -/
def process_directory (items : List (String × Except String Unit)) :
    Except String (List String) :=
  Except.ok (items.foldl (fun acc it =>
    match it.2 with
    | Except.ok _ => acc
    | Except.error e => acc ++ [report it.1 e]) [])

/-! ### Specifications of the scan combinators -/

theorem anyBelow_iff (p : ℕ → Bool) (n : ℕ) :
    anyBelow p n = true ↔ ∃ k, k < n ∧ p k = true := by
  induction n with
  | zero => simp [anyBelow]
  | succ n ih =>
    simp only [anyBelow, Bool.or_eq_true, ih]
    constructor
    · rintro (⟨k, hk, hp⟩ | hp)
      · exact ⟨k, Nat.lt_succ_of_lt hk, hp⟩
      · exact ⟨n, Nat.lt_succ_self n, hp⟩
    · rintro ⟨k, hk, hp⟩
      rcases Nat.lt_succ_iff_lt_or_eq.mp hk with h | rfl
      · exact Or.inl ⟨k, h, hp⟩
      · exact Or.inr hp

theorem findBelow_none_forall (p : ℕ → Bool) (n : ℕ)
    (h : findBelow p n = none) : ∀ k, k < n → p k = false := by
  induction n with
  | zero => intro k hk; omega
  | succ n ih =>
    rw [findBelow] at h
    cases hfb : findBelow p n with
    | some m => rw [hfb] at h; exact absurd h (by simp)
    | none =>
      rw [hfb] at h
      have hpn : p n = false := by
        by_contra hc
        rw [Bool.not_eq_false] at hc
        rw [if_pos hc] at h
        exact absurd h (by simp)
      intro k hk
      rcases Nat.lt_succ_iff_lt_or_eq.mp hk with hlt | rfl
      · exact ih hfb k hlt
      · exact hpn

theorem findBelow_none (p : ℕ → Bool) (n : ℕ)
    (h : ∀ k, k < n → p k = false) : findBelow p n = none := by
  induction n with
  | zero => rfl
  | succ n ih =>
    rw [findBelow, ih (fun k hk => h k (Nat.lt_succ_of_lt hk)),
      if_neg (by simp [h n (Nat.lt_succ_self n)])]

theorem findBelow_some (p : ℕ → Bool) (n m : ℕ)
    (h : findBelow p n = some m) :
    m < n ∧ p m = true ∧ ∀ k, k < m → p k = false := by
  induction n with
  | zero => exact absurd h (by simp [findBelow])
  | succ n ih =>
    rw [findBelow] at h
    cases hfb : findBelow p n with
    | some m' =>
      rw [hfb] at h
      obtain rfl : m' = m := by simpa using h
      obtain ⟨h1, h2, h3⟩ := ih hfb
      exact ⟨Nat.lt_succ_of_lt h1, h2, h3⟩
    | none =>
      rw [hfb] at h
      by_cases hpn : p n = true
      · rw [if_pos hpn] at h
        obtain rfl : n = m := by simpa using h
        exact ⟨Nat.lt_succ_self n, hpn, findBelow_none_forall p n hfb⟩
      · rw [if_neg hpn] at h
        exact absurd h (by simp)

theorem findLastBelow_none (p : ℕ → Bool) (n : ℕ)
    (h : ∀ k, k < n → p k = false) : findLastBelow p n = none := by
  induction n with
  | zero => rfl
  | succ n ih =>
    rw [findLastBelow, if_neg (by simp [h n (Nat.lt_succ_self n)])]
    exact ih fun k hk => h k (Nat.lt_succ_of_lt hk)

theorem findLastBelow_none_forall (p : ℕ → Bool) (n : ℕ)
    (h : findLastBelow p n = none) : ∀ k, k < n → p k = false := by
  induction n with
  | zero => intro k hk; omega
  | succ n ih =>
    rw [findLastBelow] at h
    have hpn : p n = false := by
      by_contra hc
      rw [Bool.not_eq_false] at hc
      rw [if_pos hc] at h
      exact absurd h (by simp)
    rw [if_neg (by simp [hpn])] at h
    intro k hk
    rcases Nat.lt_succ_iff_lt_or_eq.mp hk with hlt | rfl
    · exact ih h k hlt
    · exact hpn

theorem findLastBelow_some (p : ℕ → Bool) (n m : ℕ)
    (h : findLastBelow p n = some m) :
    m < n ∧ p m = true ∧ ∀ k, m < k → k < n → p k = false := by
  induction n with
  | zero => exact absurd h (by simp [findLastBelow])
  | succ n ih =>
    rw [findLastBelow] at h
    by_cases hpn : p n = true
    · rw [if_pos hpn] at h
      obtain rfl : n = m := by simpa using h
      exact ⟨Nat.lt_succ_self n, hpn, fun k h1 h2 => by omega⟩
    · rw [if_neg hpn] at h
      obtain ⟨h1, h2, h3⟩ := ih h
      refine ⟨Nat.lt_succ_of_lt h1, h2, fun k hk1 hk2 => ?_⟩
      rcases Nat.lt_succ_iff_lt_or_eq.mp hk2 with hlt | rfl
      · exact h3 k hk1 hlt
      · simpa using hpn

/-! ### Bounding-box facts -/

theorem rowHas_iff (img : Img) (y : ℕ) :
    rowHas img y = true ↔ ∃ x, x < img.width ∧ img.alpha x y ≠ 0 := by
  simp [rowHas, anyBelow_iff]

theorem colHas_iff (img : Img) (x : ℕ) :
    colHas img x = true ↔
      ∃ y, bboxTop img ≤ y ∧ y < bboxBottom img ∧ img.alpha x y ≠ 0 := by
  simp only [colHas, anyBelow_iff, bne_iff_ne, ne_eq]
  constructor
  · rintro ⟨d, hd, hp⟩
    exact ⟨bboxTop img + d, Nat.le_add_right _ _, by omega, hp⟩
  · rintro ⟨y, hy1, hy2, hp⟩
    refine ⟨y - bboxTop img, by omega, ?_⟩
    have : bboxTop img + (y - bboxTop img) = y := by omega
    rw [this]
    exact hp

theorem bboxTop_le_bboxBottom (img : Img) : bboxTop img ≤ bboxBottom img := by
  unfold bboxTop bboxBottom
  cases hfb : findBelow (rowHas img) img.height with
  | none => simp
  | some t =>
    obtain ⟨ht1, ht2, ht3⟩ := findBelow_some _ _ _ hfb
    cases hfl : findLastBelow (rowHas img) img.height with
    | none =>
      have := findLastBelow_none_forall (p := rowHas img) (n := img.height) hfl t ht1
      rw [ht2] at this
      exact absurd this (by simp)
    | some b =>
      obtain ⟨hb1, hb2, hb3⟩ := findLastBelow_some _ _ _ hfl
      simp only [Option.getD_some]
      by_contra hc
      push_neg at hc
      have : t ≤ b := by
        by_contra hbt
        push_neg at hbt
        have := ht3 b hbt
        rw [hb2] at this
        exact absurd this (by simp)
      omega

theorem bboxBottom_le_height (img : Img) : bboxBottom img ≤ img.height := by
  unfold bboxBottom
  cases hfl : findLastBelow (rowHas img) img.height with
  | none => simp
  | some b => exact (findLastBelow_some _ _ _ hfl).1

theorem bboxLeft_le_bboxRight (img : Img) : bboxLeft img ≤ bboxRight img := by
  unfold bboxLeft bboxRight
  cases hfb : findBelow (colHas img) img.width with
  | none => simp
  | some l =>
    obtain ⟨hl1, hl2, hl3⟩ := findBelow_some _ _ _ hfb
    cases hfl : findLastBelow (colHas img) img.width with
    | none =>
      have := findLastBelow_none_forall (p := colHas img) (n := img.width) hfl l hl1
      rw [hl2] at this
      exact absurd this (by simp)
    | some r =>
      obtain ⟨hr1, hr2, hr3⟩ := findLastBelow_some _ _ _ hfl
      simp only [Option.getD_some]
      have : l ≤ r := by
        by_contra hlr
        push_neg at hlr
        have := hl3 r hlr
        rw [hr2] at this
        exact absurd this (by simp)
      omega

theorem bboxRight_le_width (img : Img) : bboxRight img ≤ img.width := by
  unfold bboxRight
  cases hfl : findLastBelow (colHas img) img.width with
  | none => simp
  | some r => exact (findLastBelow_some _ _ _ hfl).1

theorem bbox_of_transparent (img : Img)
    (h : ∀ x, x < img.width → ∀ y, y < img.height → img.alpha x y = 0) :
    bboxTop img = 0 ∧ bboxBottom img = img.height ∧
      bboxLeft img = 0 ∧ bboxRight img = img.width := by
  have hrow : ∀ y, y < img.height → rowHas img y = false := by
    intro y hy
    rw [Bool.eq_false_iff]
    intro hc
    obtain ⟨x, hx, ha⟩ := (rowHas_iff img y).mp hc
    exact ha (h x hx y hy)
  have hT : bboxTop img = 0 := by
    unfold bboxTop
    rw [findBelow_none _ _ hrow]
    rfl
  have hB : bboxBottom img = img.height := by
    unfold bboxBottom
    rw [findLastBelow_none _ _ hrow]
  have hcol : ∀ x, x < img.width → colHas img x = false := by
    intro x hx
    rw [Bool.eq_false_iff]
    intro hc
    obtain ⟨y, _, hy2, ha⟩ := (colHas_iff img x).mp hc
    have hyH : y < img.height := lt_of_lt_of_le hy2 (bboxBottom_le_height img)
    exact ha (h x hx y hyH)
  have hL : bboxLeft img = 0 := by
    unfold bboxLeft
    rw [findBelow_none _ _ hcol]
    rfl
  have hR : bboxRight img = img.width := by
    unfold bboxRight
    rw [findLastBelow_none _ _ hcol]
  exact ⟨hT, hB, hL, hR⟩

theorem bbox_of_opaque (img : Img) (hW : 0 < img.width) (hH : 0 < img.height)
    (h : ∀ x, x < img.width → ∀ y, y < img.height → img.alpha x y ≠ 0) :
    bboxTop img = 0 ∧ bboxBottom img = img.height ∧
      bboxLeft img = 0 ∧ bboxRight img = img.width := by
  have hrow : ∀ y, y < img.height → rowHas img y = true := fun y hy =>
    (rowHas_iff img y).mpr ⟨0, hW, h 0 hW y hy⟩
  have hT : bboxTop img = 0 := by
    unfold bboxTop
    cases hfb : findBelow (rowHas img) img.height with
    | none =>
      have := findBelow_none_forall _ _ hfb 0 hH
      rw [hrow 0 hH] at this
      exact absurd this (by simp)
    | some t =>
      obtain ⟨ht1, _, ht3⟩ := findBelow_some _ _ _ hfb
      have : t = 0 := by
        by_contra hc
        have := ht3 0 (by omega)
        rw [hrow 0 hH] at this
        exact absurd this (by simp)
      simp [this]
  have hB : bboxBottom img = img.height := by
    unfold bboxBottom
    cases hfl : findLastBelow (rowHas img) img.height with
    | none =>
      have := findLastBelow_none_forall _ _ hfl 0 hH
      simp [hrow 0 hH] at this
    | some b =>
      obtain ⟨hb1, _, hb3⟩ := findLastBelow_some _ _ _ hfl
      have : b = img.height - 1 := by
        by_contra hc
        have hblt : b < img.height - 1 := by omega
        have := hb3 (img.height - 1) (by omega) (by omega)
        rw [hrow (img.height - 1) (by omega)] at this
        exact absurd this (by simp)
      show b + 1 = img.height
      omega
  have hband : ∀ x, x < img.width → colHas img x = true := by
    intro x hx
    refine (colHas_iff img x).mpr ⟨0, ?_, ?_, h x hx 0 hH⟩
    · rw [hT]
    · rw [hB]; exact hH
  have hL : bboxLeft img = 0 := by
    unfold bboxLeft
    cases hfb : findBelow (colHas img) img.width with
    | none =>
      have := findBelow_none_forall _ _ hfb 0 hW
      rw [hband 0 hW] at this
      exact absurd this (by simp)
    | some l =>
      obtain ⟨hl1, _, hl3⟩ := findBelow_some _ _ _ hfb
      have : l = 0 := by
        by_contra hc
        have := hl3 0 (by omega)
        rw [hband 0 hW] at this
        exact absurd this (by simp)
      simp [this]
  have hR : bboxRight img = img.width := by
    unfold bboxRight
    cases hfl : findLastBelow (colHas img) img.width with
    | none =>
      have := findLastBelow_none_forall _ _ hfl 0 hW
      simp [hband 0 hW] at this
    | some r =>
      obtain ⟨hr1, _, hr3⟩ := findLastBelow_some _ _ _ hfl
      have : r = img.width - 1 := by
        by_contra hc
        have := hr3 (img.width - 1) (by omega) (by omega)
        rw [hband (img.width - 1) (by omega)] at this
        exact absurd this (by simp)
      show r + 1 = img.width
      omega
  exact ⟨hT, hB, hL, hR⟩

theorem crop_transparent_edges_eq_self (img : Img)
    (hT : bboxTop img = 0) (hB : bboxBottom img = img.height)
    (hL : bboxLeft img = 0) (hR : bboxRight img = img.width) :
    crop_transparent_edges img = img := by
  obtain ⟨W, H, A⟩ := img
  simp only [crop_transparent_edges, crop, hT, hB, hL, hR, Nat.sub_zero, Nat.zero_add]

/-- C7: for every pixel buffer, the rectangle computed by
crop_transparent_edges satisfies 0 ≤ left ≤ right ≤ width and
0 ≤ top ≤ bottom ≤ height. -/
theorem bbox_invariant (img : Img) :
    0 ≤ (bboxRect img).left ∧
      (bboxRect img).left ≤ (bboxRect img).right ∧
      (bboxRect img).right ≤ img.width ∧
      0 ≤ (bboxRect img).top ∧
      (bboxRect img).top ≤ (bboxRect img).bottom ∧
      (bboxRect img).bottom ≤ img.height :=
  ⟨Nat.zero_le _, bboxLeft_le_bboxRight img, bboxRight_le_width img,
    Nat.zero_le _, bboxTop_le_bboxBottom img, bboxBottom_le_height img⟩

/-- C4: a fully transparent buffer of width W and height H yields the
bounding box (0, 0, W, H), and crop_transparent_edges returns the image
unmodified. -/
theorem transparent_noop (img : Img)
    (h : ∀ x, x < img.width → ∀ y, y < img.height → img.alpha x y = 0) :
    bboxRect img = ⟨0, 0, img.width, img.height⟩ ∧
      crop_transparent_edges img = img := by
  obtain ⟨hT, hB, hL, hR⟩ := bbox_of_transparent img h
  refine ⟨?_, crop_transparent_edges_eq_self img hT hB hL hR⟩
  simp [bboxRect, hT, hB, hL, hR]

theorem transparent_noop_witness :
    (∀ x, x < 2 → ∀ y, y < 2 → (Img.mk 2 2 fun _ _ => 0).alpha x y = 0) ∧
      bboxRect (Img.mk 2 2 fun _ _ => 0) = ⟨0, 0, 2, 2⟩ ∧
      crop_transparent_edges (Img.mk 2 2 fun _ _ => 0) = Img.mk 2 2 fun _ _ => 0 :=
  ⟨by decide, transparent_noop (Img.mk 2 2 fun _ _ => 0) (by decide)⟩

/-- C1: for every buffer with at least one nonzero-alpha pixel, the
rectangle computed by crop_transparent_edges is the minimal rectangle
containing every non-transparent pixel: every pixel outside it is
transparent, and each of its four boundary rows/columns contains a
non-transparent pixel. -/
theorem crop_transparent_edges_minimal (img : Img)
    (hex : ∃ x, x < img.width ∧ ∃ y, y < img.height ∧ img.alpha x y ≠ 0) :
    (∀ x y, x < img.width → y < img.height →
        (x < bboxLeft img ∨ bboxRight img ≤ x ∨
          y < bboxTop img ∨ bboxBottom img ≤ y) →
        img.alpha x y = 0) ∧
      (∃ x, bboxLeft img ≤ x ∧ x < bboxRight img ∧
        img.alpha x (bboxTop img) ≠ 0) ∧
      (∃ x, bboxLeft img ≤ x ∧ x < bboxRight img ∧
        img.alpha x (bboxBottom img - 1) ≠ 0) ∧
      (∃ y, bboxTop img ≤ y ∧ y < bboxBottom img ∧
        img.alpha (bboxLeft img) y ≠ 0) ∧
      (∃ y, bboxTop img ≤ y ∧ y < bboxBottom img ∧
        img.alpha (bboxRight img - 1) y ≠ 0) := by
  obtain ⟨x0, hx0, y0, hy0, ha0⟩ := hex
  have hrow0 : rowHas img y0 = true := (rowHas_iff _ _).mpr ⟨x0, hx0, ha0⟩
  obtain ⟨t, hfbT⟩ : ∃ t, findBelow (rowHas img) img.height = some t := by
    cases hfb : findBelow (rowHas img) img.height with
    | none =>
      have := findBelow_none_forall _ _ hfb y0 hy0
      simp [hrow0] at this
    | some t => exact ⟨t, rfl⟩
  obtain ⟨htH, htp, htmin⟩ := findBelow_some _ _ _ hfbT
  have hTop : bboxTop img = t := by unfold bboxTop; rw [hfbT]; rfl
  obtain ⟨b, hflB⟩ : ∃ b, findLastBelow (rowHas img) img.height = some b := by
    cases hfl : findLastBelow (rowHas img) img.height with
    | none =>
      have := findLastBelow_none_forall _ _ hfl y0 hy0
      simp [hrow0] at this
    | some b => exact ⟨b, rfl⟩
  obtain ⟨hbH, hbp, hbmax⟩ := findLastBelow_some _ _ _ hflB
  have hBot : bboxBottom img = b + 1 := by unfold bboxBottom; rw [hflB]
  have hty0 : t ≤ y0 := by
    by_contra hc
    push_neg at hc
    have := htmin y0 hc
    simp [hrow0] at this
  have hy0b : y0 ≤ b := by
    by_contra hc
    push_neg at hc
    have := hbmax y0 hc hy0
    simp [hrow0] at this
  have htb : t ≤ b := le_trans hty0 hy0b
  have hcol0 : colHas img x0 = true := by
    refine (colHas_iff _ _).mpr ⟨y0, ?_, ?_, ha0⟩
    · rw [hTop]; exact hty0
    · rw [hBot]; omega
  obtain ⟨l, hfbL⟩ : ∃ l, findBelow (colHas img) img.width = some l := by
    cases hfb : findBelow (colHas img) img.width with
    | none =>
      have := findBelow_none_forall _ _ hfb x0 hx0
      simp [hcol0] at this
    | some l => exact ⟨l, rfl⟩
  obtain ⟨hlW, hlp, hlmin⟩ := findBelow_some _ _ _ hfbL
  have hLeft : bboxLeft img = l := by unfold bboxLeft; rw [hfbL]; rfl
  obtain ⟨r, hflR⟩ : ∃ r, findLastBelow (colHas img) img.width = some r := by
    cases hfl : findLastBelow (colHas img) img.width with
    | none =>
      have := findLastBelow_none_forall _ _ hfl x0 hx0
      simp [hcol0] at this
    | some r => exact ⟨r, rfl⟩
  obtain ⟨hrW, hrp, hrmax⟩ := findLastBelow_some _ _ _ hflR
  have hRight : bboxRight img = r + 1 := by unfold bboxRight; rw [hflR]
  refine ⟨?_, ?_, ?_, ?_, ?_⟩
  · -- every pixel outside the rectangle is transparent
    intro x y hx hy hout
    by_contra hne
    have hrowy : rowHas img y = true := (rowHas_iff _ _).mpr ⟨x, hx, hne⟩
    have hband : t ≤ y ∧ y ≤ b := by
      constructor
      · by_contra hc
        push_neg at hc
        have := htmin y hc
        simp [hrowy] at this
      · by_contra hc
        push_neg at hc
        have := hbmax y hc hy
        simp [hrowy] at this
    have hcolx : colHas img x = true := by
      refine (colHas_iff _ _).mpr ⟨y, ?_, ?_, hne⟩
      · rw [hTop]; exact hband.1
      · rw [hBot]; omega
    rcases hout with h1 | h1 | h1 | h1
    · rw [hLeft] at h1
      have := hlmin x h1
      simp [hcolx] at this
    · rw [hRight] at h1
      have := hrmax x (by omega) hx
      simp [hcolx] at this
    · rw [hTop] at h1
      have := htmin y h1
      simp [hrowy] at this
    · rw [hBot] at h1
      have := hbmax y (by omega) hy
      simp [hrowy] at this
  · -- the top boundary row contains a non-transparent pixel
    obtain ⟨x1, hx1, ha1⟩ := (rowHas_iff _ _).mp htp
    have hcol1 : colHas img x1 = true := by
      refine (colHas_iff _ _).mpr ⟨t, ?_, ?_, ha1⟩
      · rw [hTop]
      · rw [hBot]; omega
    have hl1 : l ≤ x1 := by
      by_contra hc
      push_neg at hc
      have := hlmin x1 hc
      simp [hcol1] at this
    have hr1 : x1 ≤ r := by
      by_contra hc
      push_neg at hc
      have := hrmax x1 hc hx1
      simp [hcol1] at this
    exact ⟨x1, by rw [hLeft]; exact hl1, by rw [hRight]; omega, by rw [hTop]; exact ha1⟩
  · -- the bottom boundary row contains a non-transparent pixel
    obtain ⟨x2, hx2, ha2⟩ := (rowHas_iff _ _).mp hbp
    have hcol2 : colHas img x2 = true := by
      refine (colHas_iff _ _).mpr ⟨b, ?_, ?_, ha2⟩
      · rw [hTop]; exact htb
      · rw [hBot]; omega
    have hl2 : l ≤ x2 := by
      by_contra hc
      push_neg at hc
      have := hlmin x2 hc
      simp [hcol2] at this
    have hr2 : x2 ≤ r := by
      by_contra hc
      push_neg at hc
      have := hrmax x2 hc hx2
      simp [hcol2] at this
    refine ⟨x2, by rw [hLeft]; exact hl2, by rw [hRight]; omega, ?_⟩
    rw [hBot]
    simpa using ha2
  · -- the left boundary column contains a non-transparent pixel
    obtain ⟨y1, hy1, hy2, ha1⟩ := (colHas_iff _ _).mp hlp
    exact ⟨y1, hy1, hy2, by rw [hLeft]; exact ha1⟩
  · -- the right boundary column contains a non-transparent pixel
    obtain ⟨y2, hy1, hy2, ha2⟩ := (colHas_iff _ _).mp hrp
    refine ⟨y2, hy1, hy2, ?_⟩
    rw [hRight]
    simpa using ha2

/-- The concrete buffer used to witness C1: a 3 by 3 buffer whose only
non-transparent pixel is at (1, 1). -/
def imgC1 : Img := ⟨3, 3, fun x y => if x = 1 ∧ y = 1 then 1 else 0⟩

theorem crop_transparent_edges_minimal_witness :
    (∃ x, x < imgC1.width ∧ ∃ y, y < imgC1.height ∧ imgC1.alpha x y ≠ 0) ∧
      ((∀ x y, x < imgC1.width → y < imgC1.height →
          (x < bboxLeft imgC1 ∨ bboxRight imgC1 ≤ x ∨
            y < bboxTop imgC1 ∨ bboxBottom imgC1 ≤ y) →
          imgC1.alpha x y = 0) ∧
        (∃ x, bboxLeft imgC1 ≤ x ∧ x < bboxRight imgC1 ∧
          imgC1.alpha x (bboxTop imgC1) ≠ 0) ∧
        (∃ x, bboxLeft imgC1 ≤ x ∧ x < bboxRight imgC1 ∧
          imgC1.alpha x (bboxBottom imgC1 - 1) ≠ 0) ∧
        (∃ y, bboxTop imgC1 ≤ y ∧ y < bboxBottom imgC1 ∧
          imgC1.alpha (bboxLeft imgC1) y ≠ 0) ∧
        (∃ y, bboxTop imgC1 ≤ y ∧ y < bboxBottom imgC1 ∧
          imgC1.alpha (bboxRight imgC1 - 1) y ≠ 0)) :=
  ⟨⟨1, by decide, 1, by decide, by decide⟩,
    crop_transparent_edges_minimal imgC1 ⟨1, by decide, 1, by decide, by decide⟩⟩

/-! ### Round to nearest, ties to even: basic bounds -/

theorem cast_div_add_mod (c d : ℕ) (hd : 0 < d) :
    (c : ℚ) / d = ((c / d : ℕ) : ℚ) + ((c % d : ℕ) : ℚ) / d := by
  have hdQ : ((d : ℚ)) ≠ 0 := Nat.cast_ne_zero.mpr (by omega)
  have h2 : ((d : ℚ)) * ((c / d : ℕ) : ℚ) + ((c % d : ℕ) : ℚ) = (c : ℚ) := by
    exact_mod_cast Nat.div_add_mod c d
  field_simp
  linarith [h2]

theorem lt_half_iff (r d : ℕ) (hd : 0 < d) :
    2 * r < d ↔ ((r : ℚ)) / d < 1 / 2 := by
  have hdQ : (0 : ℚ) < d := by exact_mod_cast hd
  rw [div_lt_div_iff hdQ (by norm_num : (0 : ℚ) < 2)]
  constructor <;> intro h
  · have h2 : ((2 * r : ℕ) : ℚ) < d := by exact_mod_cast h
    push_cast at h2
    linarith
  · have h2 : ((2 * r : ℕ) : ℚ) < d := by push_cast; linarith
    exact_mod_cast h2

theorem half_lt_iff (r d : ℕ) (hd : 0 < d) :
    d < 2 * r ↔ (1 / 2 : ℚ) < (r : ℚ) / d := by
  have hdQ : (0 : ℚ) < d := by exact_mod_cast hd
  rw [div_lt_div_iff (by norm_num : (0 : ℚ) < 2) hdQ]
  constructor <;> intro h
  · have h2 : ((d : ℕ) : ℚ) < 2 * r := by exact_mod_cast h
    linarith
  · have h2 : ((d : ℕ) : ℚ) < ((2 * r : ℕ) : ℚ) := by push_cast; linarith
    exact_mod_cast h2

theorem half_eq_iff (r d : ℕ) (hd : 0 < d) :
    2 * r = d ↔ ((r : ℚ)) / d = 1 / 2 := by
  have h1 := lt_half_iff r d hd
  have h2 := half_lt_iff r d hd
  constructor <;> intro h
  · have hnlt : ¬ ((r : ℚ)) / d < 1 / 2 := by rw [← h1]; omega
    have hngt : ¬ (1 / 2 : ℚ) < (r : ℚ) / d := by rw [← h2]; omega
    linarith [lt_or_gt_of_ne (a := ((r : ℚ)) / d) (b := (1 / 2 : ℚ))]
  · have hnlt : ¬ 2 * r < d := by rw [h1, h]; exact lt_irrefl _
    have hngt : ¬ d < 2 * r := by rw [h2, h]; exact lt_irrefl _
    omega

theorem rneFrac_ge_div (c d : ℕ) : c / d ≤ rneFrac c d := by
  unfold rneFrac
  split_ifs <;> omega

theorem rneFrac_le_div_succ (c d : ℕ) : rneFrac c d ≤ c / d + 1 := by
  unfold rneFrac
  split_ifs <;> omega

theorem rneFrac_le (c d : ℕ) (hd : 0 < d) :
    (rneFrac c d : ℚ) ≤ (c : ℚ) / d + 1 / 2 := by
  have hdQ : (0 : ℚ) < d := by exact_mod_cast hd
  have hval := cast_div_add_mod c d hd
  have hrd : ((c % d : ℕ) : ℚ) / d < 1 := by
    rw [div_lt_one hdQ]
    exact_mod_cast Nat.mod_lt c hd
  have hrd0 : (0 : ℚ) ≤ ((c % d : ℕ) : ℚ) / d := by positivity
  unfold rneFrac
  split_ifs with h1 h2 h3
  · push_cast
    linarith
  · have := (half_lt_iff (c % d) d hd).mp h2
    push_cast
    linarith
  · have heq := (half_eq_iff (c % d) d hd).mp (by omega)
    push_cast
    linarith
  · have heq := (half_eq_iff (c % d) d hd).mp (by omega)
    push_cast
    linarith

theorem le_rneFrac (c d : ℕ) (hd : 0 < d) :
    (c : ℚ) / d - 1 / 2 ≤ (rneFrac c d : ℚ) := by
  have hdQ : (0 : ℚ) < d := by exact_mod_cast hd
  have hval := cast_div_add_mod c d hd
  have hrd : ((c % d : ℕ) : ℚ) / d < 1 := by
    rw [div_lt_one hdQ]
    exact_mod_cast Nat.mod_lt c hd
  have hrd0 : (0 : ℚ) ≤ ((c % d : ℕ) : ℚ) / d := by positivity
  unfold rneFrac
  split_ifs with h1 h2 h3
  · have := (lt_half_iff (c % d) d hd).mp h1
    push_cast
    linarith
  · push_cast
    linarith
  · have heq := (half_eq_iff (c % d) d hd).mp (by omega)
    push_cast
    linarith
  · have heq := (half_eq_iff (c % d) d hd).mp (by omega)
    push_cast
    linarith

theorem rneFrac_exact (c d : ℕ) (hd : 0 < d) (hdvd : d ∣ c) :
    rneFrac c d = c / d := by
  have hmod : c % d = 0 := by
    obtain ⟨q, rfl⟩ := hdvd
    exact Nat.mul_mod_right d q
  unfold rneFrac
  rw [hmod]
  simp [hd]

theorem div_le_div_of_cast_le (c1 d1 c2 d2 : ℕ) (hd1 : 0 < d1) (hd2 : 0 < d2)
    (h : (c1 : ℚ) / d1 ≤ (c2 : ℚ) / d2) : c1 / d1 ≤ c2 / d2 := by
  have hdQ1 : (0 : ℚ) < d1 := by exact_mod_cast hd1
  have hdQ2 : (0 : ℚ) < d2 := by exact_mod_cast hd2
  have h1 : ((c1 / d1 : ℕ) : ℚ) ≤ (c1 : ℚ) / d1 := by
    rw [cast_div_add_mod c1 d1 hd1]
    have hnn : (0 : ℚ) ≤ ((c1 % d1 : ℕ) : ℚ) / d1 := by positivity
    linarith
  have h2 : (c2 : ℚ) / d2 < ((c2 / d2 : ℕ) : ℚ) + 1 := by
    rw [cast_div_add_mod c2 d2 hd2]
    have : ((c2 % d2 : ℕ) : ℚ) / d2 < 1 := by
      rw [div_lt_one hdQ2]
      exact_mod_cast Nat.mod_lt c2 hd2
    linarith
  have : ((c1 / d1 : ℕ) : ℚ) < ((c2 / d2 : ℕ) : ℚ) + 1 := by linarith
  have : (c1 / d1 : ℕ) < c2 / d2 + 1 := by exact_mod_cast this
  omega

theorem rneFrac_mono (c1 d1 c2 d2 : ℕ) (hd1 : 0 < d1) (hd2 : 0 < d2)
    (h : (c1 : ℚ) / d1 ≤ (c2 : ℚ) / d2) : rneFrac c1 d1 ≤ rneFrac c2 d2 := by
  have hq := div_le_div_of_cast_le c1 d1 c2 d2 hd1 hd2 h
  rcases Nat.lt_or_ge (c1 / d1) (c2 / d2) with hlt | hge
  · calc rneFrac c1 d1 ≤ c1 / d1 + 1 := rneFrac_le_div_succ c1 d1
      _ ≤ c2 / d2 := hlt
      _ ≤ rneFrac c2 d2 := rneFrac_ge_div c2 d2
  · have heq : c1 / d1 = c2 / d2 := by omega
    -- equal integer parts; compare the fractional parts
    have hfrac : ((c1 % d1 : ℕ) : ℚ) / d1 ≤ ((c2 % d2 : ℕ) : ℚ) / d2 := by
      have hv1 := cast_div_add_mod c1 d1 hd1
      have hv2 := cast_div_add_mod c2 d2 hd2
      have hcast : ((c1 / d1 : ℕ) : ℚ) = ((c2 / d2 : ℕ) : ℚ) := by exact_mod_cast heq
      linarith [h, hv1, hv2, hcast]
    have hup : rneFrac c1 d1 = c1 / d1 + 1 → rneFrac c2 d2 = c2 / d2 + 1 := by
      intro hu
      have hnotdown : ¬ 2 * (c1 % d1) < d1 := by
        intro hc
        unfold rneFrac at hu
        rw [if_pos hc] at hu
        omega
      have hd2le : ¬ 2 * (c2 % d2) < d2 := by
        intro hc
        have hlt2 := (lt_half_iff (c2 % d2) d2 hd2).mp hc
        have hge1 : (1 / 2 : ℚ) ≤ ((c1 % d1 : ℕ) : ℚ) / d1 := by
          rcases Nat.lt_or_ge (2 * (c1 % d1)) d1 with hx | hx
          · exact absurd hx hnotdown
          · rcases Nat.eq_or_lt_of_le hx with hx2 | hx2
            · exact le_of_eq ((half_eq_iff (c1 % d1) d1 hd1).mp hx2.symm).symm
            · exact le_of_lt ((half_lt_iff (c1 % d1) d1 hd1).mp hx2)
        linarith
      rcases Nat.lt_or_ge d2 (2 * (c2 % d2)) with hgt | hge2
      · unfold rneFrac
        rw [if_neg hd2le, if_pos hgt]
      · -- a tie on the second fraction
        have htie2 : 2 * (c2 % d2) = d2 := by omega
        have htie2Q := (half_eq_iff (c2 % d2) d2 hd2).mp htie2
        -- then the first fraction is at most 1/2, hence not strictly above:
        -- the first rounding went up, so it must be a tie with odd quotient
        have hnotup1 : ¬ d1 < 2 * (c1 % d1) := by
          intro hc
          have := (half_lt_iff (c1 % d1) d1 hd1).mp hc
          linarith
        have htie1 : 2 * (c1 % d1) = d1 := by omega
        have hodd : ¬ c1 / d1 % 2 = 0 := by
          intro hc
          unfold rneFrac at hu
          rw [if_neg hnotdown, if_neg hnotup1, if_pos hc] at hu
          omega
        unfold rneFrac
        rw [if_neg hd2le, if_neg (by omega : ¬ d2 < 2 * (c2 % d2)),
          if_neg (by rw [← heq]; exact hodd)]
    have hbounds1 : rneFrac c1 d1 = c1 / d1 ∨ rneFrac c1 d1 = c1 / d1 + 1 := by
      have := rneFrac_ge_div c1 d1
      have := rneFrac_le_div_succ c1 d1
      omega
    rcases hbounds1 with hcase | hcase
    · rw [hcase, heq]
      exact rneFrac_ge_div c2 d2
    · rw [hcase, hup hcase, heq]

/-! ### Binade search -/

theorem eUpN_spec (f : ℕ) : ∀ a b : ℕ, 0 < b → b ≤ a → a < b * 2 ^ f →
    b * 2 ^ eUpN f a b ≤ a ∧ a < b * 2 ^ (eUpN f a b + 1) := by
  induction f with
  | zero =>
    intro a b hb hba h
    simp only [pow_zero, mul_one] at h
    omega
  | succ f ih =>
    intro a b hb hba h
    rw [eUpN]
    by_cases hcase : a < 2 * b
    · rw [if_pos hcase]
      constructor
      · simpa using hba
      · simpa [mul_comm] using hcase
    · rw [if_neg hcase]
      push_neg at hcase
      have hfuel : a < 2 * b * 2 ^ f := by
        have : b * 2 ^ (f + 1) = 2 * b * 2 ^ f := by ring
        omega
      obtain ⟨h1, h2⟩ := ih a (2 * b) (by omega) hcase hfuel
      constructor
      · have : b * 2 ^ (eUpN f a (2 * b) + 1) = 2 * b * 2 ^ eUpN f a (2 * b) := by ring
        omega
      · have : b * 2 ^ (eUpN f a (2 * b) + 1 + 1) = 2 * b * 2 ^ (eUpN f a (2 * b) + 1) := by
          ring
        omega

theorem eDownN_of_le (f : ℕ) (a b : ℕ) (h : b ≤ a) : eDownN f a b = 0 := by
  cases f with
  | zero => rfl
  | succ f => rw [eDownN, if_pos h]

theorem eDownN_spec (f : ℕ) : ∀ a b : ℕ, 0 < a → a < b → b ≤ a * 2 ^ f →
    b ≤ a * 2 ^ eDownN f a b ∧ a * 2 ^ eDownN f a b < 2 * b := by
  induction f with
  | zero =>
    intro a b ha hab h
    simp only [pow_zero, mul_one] at h
    omega
  | succ f ih =>
    intro a b ha hab h
    rw [eDownN, if_neg (by omega : ¬ b ≤ a)]
    by_cases hcase : b ≤ 2 * a
    · rw [eDownN_of_le f (2 * a) b hcase]
      constructor
      · simpa [mul_comm] using hcase
      · have : a * 2 ^ (0 + 1) = 2 * a := by ring
        omega
    · push_neg at hcase
      have hfuel : b ≤ 2 * a * 2 ^ f := by
        have : a * 2 ^ (f + 1) = 2 * a * 2 ^ f := by ring
        omega
      obtain ⟨h1, h2⟩ := ih (2 * a) b (by omega) hcase hfuel
      constructor
      · have : a * 2 ^ (eDownN f (2 * a) b + 1) = 2 * a * 2 ^ eDownN f (2 * a) b := by ring
        omega
      · have : a * 2 ^ (eDownN f (2 * a) b + 1) = 2 * a * 2 ^ eDownN f (2 * a) b := by ring
        omega

theorem fExp_spec (a b : ℕ) (ha : 0 < a) (hb : 0 < b)
    (hub : a < b * 2 ^ 128) (hlb : b ≤ a * 2 ^ 128) :
    (2 : ℚ) ^ fExp a b ≤ (a : ℚ) / b ∧ (a : ℚ) / b < (2 : ℚ) ^ (fExp a b + 1) := by
  have hbQ : (0 : ℚ) < b := by exact_mod_cast hb
  unfold fExp
  by_cases hba : b ≤ a
  · rw [if_pos hba]
    obtain ⟨h1, h2⟩ := eUpN_spec 128 a b hb hba hub
    constructor
    · rw [zpow_natCast, le_div_iff hbQ]
      calc (2 : ℚ) ^ eUpN 128 a b * b = ((b * 2 ^ eUpN 128 a b : ℕ) : ℚ) := by
            push_cast; ring
        _ ≤ a := by exact_mod_cast h1
    · have hcast : ((eUpN 128 a b : ℤ) + 1) = ((eUpN 128 a b + 1 : ℕ) : ℤ) := by push_cast; ring
      rw [hcast, zpow_natCast, div_lt_iff hbQ]
      calc (a : ℚ) < ((b * 2 ^ (eUpN 128 a b + 1) : ℕ) : ℚ) := by exact_mod_cast h2
        _ = 2 ^ (eUpN 128 a b + 1) * b := by push_cast; ring
  · rw [if_neg hba]
    push_neg at hba
    obtain ⟨h1, h2⟩ := eDownN_spec 128 a b ha hba hlb
    have hpow : (0 : ℚ) < (2 : ℚ) ^ eDownN 128 a b := by positivity
    constructor
    · rw [zpow_neg, zpow_natCast, inv_eq_one_div, div_le_div_iff (by positivity) hbQ]
      calc (1 : ℚ) * b = b := by ring
        _ ≤ ((a * 2 ^ eDownN 128 a b : ℕ) : ℚ) := by exact_mod_cast h1
        _ = a * 2 ^ eDownN 128 a b := by push_cast; ring
    · have hval : (2 : ℚ) ^ (-(eDownN 128 a b : ℤ) + 1) = 2 / 2 ^ eDownN 128 a b := by
        rw [zpow_add₀ (by norm_num : (2 : ℚ) ≠ 0), zpow_neg, zpow_natCast, zpow_one]
        ring
      rw [hval, div_lt_div_iff hbQ (by positivity)]
      calc (a : ℚ) * 2 ^ eDownN 128 a b = ((a * 2 ^ eDownN 128 a b : ℕ) : ℚ) := by
            push_cast; ring
        _ < ((2 * b : ℕ) : ℚ) := by exact_mod_cast h2
        _ = 2 * b := by push_cast; ring

/-! ### Correct rounding: error bounds, monotonicity, exactness -/

theorem zpow_eq_toNat_div (n : ℤ) :
    (2 : ℚ) ^ n = (2 : ℚ) ^ n.toNat / (2 : ℚ) ^ (-n).toNat := by
  rcases le_or_lt 0 n with h | h
  · have h1 : (n.toNat : ℤ) = n := Int.toNat_of_nonneg h
    have h2 : (-n).toNat = 0 := by omega
    rw [h2, pow_zero, div_one, ← zpow_natCast (2 : ℚ) n.toNat, h1]
  · have h1 : n.toNat = 0 := by omega
    have h2 : ((-n).toNat : ℤ) = -n := by omega
    rw [h1, pow_zero, ← zpow_natCast (2 : ℚ) (-n).toNat, h2, one_div, ← zpow_neg, neg_neg]

theorem roundAt_num_den (a b : ℕ) (e : ℤ) (hb : 0 < b) :
    ((a * 2 ^ ((23 : ℤ) - e).toNat : ℕ) : ℚ) / ((b * 2 ^ (e - 23).toNat : ℕ) : ℚ)
      = (a : ℚ) / b * (2 : ℚ) ^ ((23 : ℤ) - e) := by
  have hbQ : ((b : ℚ)) ≠ 0 := Nat.cast_ne_zero.mpr (by omega)
  have hneg : ((e : ℤ) - 23) = -((23 : ℤ) - e) := by ring
  rw [zpow_eq_toNat_div ((23 : ℤ) - e)]
  push_cast
  rw [hneg]
  have hp1 : ((2 : ℚ)) ^ ((23 : ℤ) - e).toNat ≠ 0 := by positivity
  have hp2 : ((2 : ℚ)) ^ (-((23 : ℤ) - e)).toNat ≠ 0 := by positivity
  field_simp

theorem roundAt_toRat (a b : ℕ) (e : ℤ) :
    (roundAt a b e).toRat
      = (rneFrac (a * 2 ^ ((23 : ℤ) - e).toNat) (b * 2 ^ (e - 23).toNat) : ℚ)
          * (2 : ℚ) ^ (e - 23) := rfl

theorem roundAt_bounds (a b : ℕ) (e : ℤ) (ha : 0 < a) (hb : 0 < b)
    (h1 : (2 : ℚ) ^ e ≤ (a : ℚ) / b) (h2 : (a : ℚ) / b < (2 : ℚ) ^ (e + 1)) :
    (a : ℚ) / b - (a : ℚ) / b / 2 ^ 24 ≤ (roundAt a b e).toRat ∧
      (roundAt a b e).toRat ≤ (a : ℚ) / b + (a : ℚ) / b / 2 ^ 24 ∧
      (2 : ℚ) ^ e ≤ (roundAt a b e).toRat ∧
      (roundAt a b e).toRat ≤ (2 : ℚ) ^ (e + 1) := by
  have hD : 0 < b * 2 ^ (e - 23).toNat := by positivity
  have hSpos : (0 : ℚ) < (2 : ℚ) ^ ((23 : ℤ) - e) := by positivity
  have hTpos : (0 : ℚ) < (2 : ℚ) ^ ((e : ℤ) - 23) := by positivity
  have hST : (2 : ℚ) ^ ((23 : ℤ) - e) * (2 : ℚ) ^ ((e : ℤ) - 23) = 1 := by
    rw [← zpow_add₀ (by norm_num : (2 : ℚ) ≠ 0)]
    norm_num
  have hT23 : (2 : ℚ) ^ ((e : ℤ) - 23) * (2 : ℚ) ^ (23 : ℕ) = (2 : ℚ) ^ e := by
    rw [← zpow_natCast (2 : ℚ) 23, ← zpow_add₀ (by norm_num : (2 : ℚ) ≠ 0)]
    congr 1
    ring
  have hT24 : (2 : ℚ) ^ ((e : ℤ) - 23) * (2 : ℚ) ^ (24 : ℕ) = (2 : ℚ) ^ (e + 1) := by
    rw [← zpow_natCast (2 : ℚ) 24, ← zpow_add₀ (by norm_num : (2 : ℚ) ≠ 0)]
    congr 1
    ring
  have hS23 : (2 : ℚ) ^ e * (2 : ℚ) ^ ((23 : ℤ) - e) = (2 : ℚ) ^ (23 : ℕ) := by
    rw [← zpow_add₀ (by norm_num : (2 : ℚ) ≠ 0), ← zpow_natCast (2 : ℚ) 23]
    congr 1
    ring
  have hS24 : (2 : ℚ) ^ (e + 1) * (2 : ℚ) ^ ((23 : ℤ) - e) = (2 : ℚ) ^ (24 : ℕ) := by
    rw [← zpow_add₀ (by norm_num : (2 : ℚ) ≠ 0), ← zpow_natCast (2 : ℚ) 24]
    congr 1
    ring
  have hMD := roundAt_num_den a b e hb
  have hrU := rneFrac_le (a * 2 ^ ((23 : ℤ) - e).toNat) (b * 2 ^ (e - 23).toNat) hD
  have hrL := le_rneFrac (a * 2 ^ ((23 : ℤ) - e).toNat) (b * 2 ^ (e - 23).toNat) hD
  rw [hMD] at hrU hrL
  set R : ℕ := rneFrac (a * 2 ^ ((23 : ℤ) - e).toNat) (b * 2 ^ (e - 23).toNat) with hR
  have htoRat : (roundAt a b e).toRat = (R : ℚ) * (2 : ℚ) ^ ((e : ℤ) - 23) := rfl
  have hq24 : (2 : ℚ) ^ ((e : ℤ) - 23) / 2 ≤ ((a : ℚ) / b) / 2 ^ 24 := by
    rw [div_le_div_iff (by norm_num : (0 : ℚ) < 2) (by norm_num : (0 : ℚ) < 2 ^ 24)]
    calc (2 : ℚ) ^ ((e : ℤ) - 23) * 2 ^ 24 = (2 : ℚ) ^ e * 2 := by
          rw [hT24, zpow_add_one₀ (by norm_num : (2 : ℚ) ≠ 0)]
      _ ≤ (a : ℚ) / b * 2 := by linarith
  refine ⟨?_, ?_, ?_, ?_⟩
  · -- lower error bound
    rw [htoRat]
    have step : ((a : ℚ) / b * (2 : ℚ) ^ ((23 : ℤ) - e) - 1 / 2) * (2 : ℚ) ^ ((e : ℤ) - 23)
        ≤ (R : ℚ) * (2 : ℚ) ^ ((e : ℤ) - 23) :=
      mul_le_mul_of_nonneg_right hrL hTpos.le
    have expand : ((a : ℚ) / b * (2 : ℚ) ^ ((23 : ℤ) - e) - 1 / 2) * (2 : ℚ) ^ ((e : ℤ) - 23)
        = (a : ℚ) / b - (2 : ℚ) ^ ((e : ℤ) - 23) / 2 := by
      have : (a : ℚ) / b * ((2 : ℚ) ^ ((23 : ℤ) - e) * (2 : ℚ) ^ ((e : ℤ) - 23))
          = (a : ℚ) / b := by rw [hST, mul_one]
      calc ((a : ℚ) / b * (2 : ℚ) ^ ((23 : ℤ) - e) - 1 / 2) * (2 : ℚ) ^ ((e : ℤ) - 23)
          = (a : ℚ) / b * ((2 : ℚ) ^ ((23 : ℤ) - e) * (2 : ℚ) ^ ((e : ℤ) - 23))
            - (2 : ℚ) ^ ((e : ℤ) - 23) / 2 := by ring
        _ = (a : ℚ) / b - (2 : ℚ) ^ ((e : ℤ) - 23) / 2 := by rw [this]
    linarith [step, expand ▸ step, hq24]
  · -- upper error bound
    rw [htoRat]
    have step : (R : ℚ) * (2 : ℚ) ^ ((e : ℤ) - 23)
        ≤ ((a : ℚ) / b * (2 : ℚ) ^ ((23 : ℤ) - e) + 1 / 2) * (2 : ℚ) ^ ((e : ℤ) - 23) :=
      mul_le_mul_of_nonneg_right hrU hTpos.le
    have expand : ((a : ℚ) / b * (2 : ℚ) ^ ((23 : ℤ) - e) + 1 / 2) * (2 : ℚ) ^ ((e : ℤ) - 23)
        = (a : ℚ) / b + (2 : ℚ) ^ ((e : ℤ) - 23) / 2 := by
      have : (a : ℚ) / b * ((2 : ℚ) ^ ((23 : ℤ) - e) * (2 : ℚ) ^ ((e : ℤ) - 23))
          = (a : ℚ) / b := by rw [hST, mul_one]
      calc ((a : ℚ) / b * (2 : ℚ) ^ ((23 : ℤ) - e) + 1 / 2) * (2 : ℚ) ^ ((e : ℤ) - 23)
          = (a : ℚ) / b * ((2 : ℚ) ^ ((23 : ℤ) - e) * (2 : ℚ) ^ ((e : ℤ) - 23))
            + (2 : ℚ) ^ ((e : ℤ) - 23) / 2 := by ring
        _ = (a : ℚ) / b + (2 : ℚ) ^ ((e : ℤ) - 23) / 2 := by rw [this]
    linarith [step, expand ▸ step, hq24]
  · -- the result stays at or above the bottom of the binade
    have hxlo : (2 : ℚ) ^ (23 : ℕ) ≤ (a : ℚ) / b * (2 : ℚ) ^ ((23 : ℤ) - e) := by
      calc (2 : ℚ) ^ (23 : ℕ) = (2 : ℚ) ^ e * (2 : ℚ) ^ ((23 : ℤ) - e) := hS23.symm
        _ ≤ (a : ℚ) / b * (2 : ℚ) ^ ((23 : ℤ) - e) :=
          mul_le_mul_of_nonneg_right h1 hSpos.le
    have hRge : (2 : ℚ) ^ (23 : ℕ) ≤ (R : ℚ) := by
      by_contra hc
      push_neg at hc
      have hRlt : (R : ℚ) < ((2 ^ 23 : ℕ) : ℚ) := by push_cast; linarith
      have hRlt2 : R < 2 ^ 23 := by exact_mod_cast hRlt
      have hRle : (R : ℚ) ≤ ((2 ^ 23 - 1 : ℕ) : ℚ) := by exact_mod_cast by omega
      have : ((2 ^ 23 - 1 : ℕ) : ℚ) = 2 ^ 23 - 1 := by push_cast; norm_num
      linarith [hrL]
    rw [htoRat]
    calc (2 : ℚ) ^ e = (2 : ℚ) ^ ((e : ℤ) - 23) * (2 : ℚ) ^ (23 : ℕ) := hT23.symm
      _ = (2 : ℚ) ^ (23 : ℕ) * (2 : ℚ) ^ ((e : ℤ) - 23) := by ring
      _ ≤ (R : ℚ) * (2 : ℚ) ^ ((e : ℤ) - 23) :=
        mul_le_mul_of_nonneg_right hRge hTpos.le
  · -- the result stays at or below the top of the binade
    have hxhi : (a : ℚ) / b * (2 : ℚ) ^ ((23 : ℤ) - e) < (2 : ℚ) ^ (24 : ℕ) := by
      calc (a : ℚ) / b * (2 : ℚ) ^ ((23 : ℤ) - e)
          < (2 : ℚ) ^ (e + 1) * (2 : ℚ) ^ ((23 : ℤ) - e) :=
            mul_lt_mul_of_pos_right h2 hSpos
        _ = (2 : ℚ) ^ (24 : ℕ) := hS24
    have hRle : (R : ℚ) ≤ (2 : ℚ) ^ (24 : ℕ) := by
      have hRlt : (R : ℚ) < 2 ^ 24 + 1 / 2 := by linarith [hrU]
      have : R < 2 ^ 24 + 1 := by
        by_contra hc
        push_neg at hc
        have : ((2 ^ 24 + 1 : ℕ) : ℚ) ≤ (R : ℚ) := by exact_mod_cast hc
        push_cast at this
        linarith
      have hle : R ≤ 2 ^ 24 := by omega
      exact_mod_cast hle
    rw [htoRat]
    calc (R : ℚ) * (2 : ℚ) ^ ((e : ℤ) - 23)
        ≤ (2 : ℚ) ^ (24 : ℕ) * (2 : ℚ) ^ ((e : ℤ) - 23) :=
          mul_le_mul_of_nonneg_right hRle hTpos.le
      _ = (2 : ℚ) ^ (e + 1) := by rw [← hT24]; ring

theorem roundPosRat_bounds (a b : ℕ) (ha : 0 < a) (hb : 0 < b)
    (hub : a < b * 2 ^ 128) (hlb : b ≤ a * 2 ^ 128) :
    (a : ℚ) / b - (a : ℚ) / b / 2 ^ 24 ≤ (roundPosRat a b).toRat ∧
      (roundPosRat a b).toRat ≤ (a : ℚ) / b + (a : ℚ) / b / 2 ^ 24 := by
  obtain ⟨h1, h2⟩ := fExp_spec a b ha hb hub hlb
  obtain ⟨e1, e2, _, _⟩ := roundAt_bounds a b (fExp a b) ha hb h1 h2
  exact ⟨e1, e2⟩

theorem roundPosRat_mono (a1 b1 a2 b2 : ℕ) (ha1 : 0 < a1) (hb1 : 0 < b1)
    (ha2 : 0 < a2) (hb2 : 0 < b2)
    (hub1 : a1 < b1 * 2 ^ 128) (hlb1 : b1 ≤ a1 * 2 ^ 128)
    (hub2 : a2 < b2 * 2 ^ 128) (hlb2 : b2 ≤ a2 * 2 ^ 128)
    (h : (a1 : ℚ) / b1 ≤ (a2 : ℚ) / b2) :
    (roundPosRat a1 b1).toRat ≤ (roundPosRat a2 b2).toRat := by
  obtain ⟨hs1, hs2⟩ := fExp_spec a1 b1 ha1 hb1 hub1 hlb1
  obtain ⟨ht1, ht2⟩ := fExp_spec a2 b2 ha2 hb2 hub2 hlb2
  have he : fExp a1 b1 ≤ fExp a2 b2 := by
    by_contra hc
    push_neg at hc
    have hpow : (2 : ℚ) ^ (fExp a2 b2 + 1) ≤ (2 : ℚ) ^ fExp a1 b1 :=
      zpow_le_zpow_right₀ (by norm_num : (1 : ℚ) ≤ 2)
        (show fExp a2 b2 + 1 ≤ fExp a1 b1 by omega)
    linarith
  rcases eq_or_lt_of_le he with heq | hlt
  · -- equal binades: compare the scaled fractions directly
    unfold roundPosRat
    rw [← heq]
    rw [roundAt_toRat, roundAt_toRat]
    have hD1 : 0 < b1 * 2 ^ ((fExp a1 b1 : ℤ) - 23).toNat := by positivity
    have hD2 : 0 < b2 * 2 ^ ((fExp a1 b1 : ℤ) - 23).toNat := by positivity
    have hfrac : ((a1 * 2 ^ ((23 : ℤ) - fExp a1 b1).toNat : ℕ) : ℚ)
          / ((b1 * 2 ^ ((fExp a1 b1 : ℤ) - 23).toNat : ℕ) : ℚ)
        ≤ ((a2 * 2 ^ ((23 : ℤ) - fExp a1 b1).toNat : ℕ) : ℚ)
          / ((b2 * 2 ^ ((fExp a1 b1 : ℤ) - 23).toNat : ℕ) : ℚ) := by
      rw [roundAt_num_den a1 b1 (fExp a1 b1) hb1, roundAt_num_den a2 b2 (fExp a1 b1) hb2]
      have hSpos : (0 : ℚ) ≤ (2 : ℚ) ^ ((23 : ℤ) - fExp a1 b1) := by positivity
      exact mul_le_mul_of_nonneg_right h hSpos
    have hmono := rneFrac_mono _ _ _ _ hD1 hD2 hfrac
    have hTpos : (0 : ℚ) ≤ (2 : ℚ) ^ ((fExp a1 b1 : ℤ) - 23) := by positivity
    exact mul_le_mul_of_nonneg_right (Nat.cast_le.mpr hmono) hTpos
  · -- the first binade is strictly below the second
    obtain ⟨_, _, _, htop1⟩ := roundAt_bounds a1 b1 (fExp a1 b1) ha1 hb1 hs1 hs2
    obtain ⟨_, _, hbot2, _⟩ := roundAt_bounds a2 b2 (fExp a2 b2) ha2 hb2 ht1 ht2
    calc (roundPosRat a1 b1).toRat ≤ (2 : ℚ) ^ (fExp a1 b1 + 1) := htop1
      _ ≤ (2 : ℚ) ^ fExp a2 b2 :=
        zpow_le_zpow_right₀ (by norm_num : (1 : ℚ) ≤ 2)
          (show fExp a1 b1 + 1 ≤ fExp a2 b2 by omega)
      _ ≤ (roundPosRat a2 b2).toRat := hbot2

theorem roundPosRat_int (n : ℕ) (h1 : 0 < n) (h2 : n ≤ 2 ^ 24) :
    (roundPosRat n 1).toRat = (n : ℚ) := by
  have hub : n < 1 * 2 ^ 128 := by
    have : (2 : ℕ) ^ 24 < 2 ^ 128 := by norm_num
    omega
  have hlb : 1 ≤ n * 2 ^ 128 := by
    have h128 : (1 : ℕ) ≤ 2 ^ 128 := by norm_num
    simpa using Nat.mul_le_mul h1 h128
  obtain ⟨hs1, hs2⟩ := fExp_spec n 1 h1 one_pos hub hlb
  rw [Nat.cast_one, div_one] at hs1 hs2
  set e := fExp n 1 with hedef
  have he24 : e ≤ 24 := by
    by_contra hc
    push_neg at hc
    have hpow : (2 : ℚ) ^ (25 : ℤ) ≤ (2 : ℚ) ^ e :=
      zpow_le_zpow_right₀ (by norm_num : (1 : ℚ) ≤ 2) (show (25 : ℤ) ≤ e by omega)
    have hv : ((2 : ℚ) ^ (25 : ℤ)) = 33554432 := by norm_num
    have hp24 : (2 : ℕ) ^ 24 = 16777216 := by norm_num
    have hn : (n : ℚ) ≤ 16777216 := by
      have h22 : n ≤ 16777216 := by omega
      exact_mod_cast h22
    linarith [hs1]
  rcases le_or_lt e 23 with he23 | hegt
  · -- the scaled fraction has denominator 1, so rounding is exact
    have hden : ((e : ℤ) - 23).toNat = 0 := by omega
    have hnum : ((((23 : ℤ) - e).toNat : ℕ) : ℤ) = 23 - e := by omega
    unfold roundPosRat roundAt F32.toRat
    rw [← hedef, hden]
    simp only [pow_zero, mul_one, one_mul]
    rw [rneFrac_exact _ 1 one_pos (one_dvd _), Nat.div_one]
    push_cast
    rw [← zpow_natCast (2 : ℚ) ((23 : ℤ) - e).toNat, hnum, mul_assoc,
      ← zpow_add₀ (by norm_num : (2 : ℚ) ≠ 0)]
    norm_num
  · -- e = 24, which forces n = 2 ^ 24
    have he : e = 24 := by omega
    have hn : n = 2 ^ 24 := by
      have hv : ((2 : ℚ) ^ (24 : ℤ)) = 16777216 := by norm_num
      rw [he, hv] at hs1
      have hle : (16777216 : ℕ) ≤ n := by exact_mod_cast hs1
      have hp24 : (2 : ℕ) ^ 24 = 16777216 := by norm_num
      omega
    rw [hn]
    have hval : roundPosRat (2 ^ 24) 1 = ⟨2 ^ 23, 1⟩ := by decide
    rw [hval]
    unfold F32.toRat
    rw [zpow_one]
    norm_num

/-! ### The F32 operations compute on the denoted rationals -/

theorem F32.toRat_mul_shift (x y : F32) :
    x.toRat * (2 : ℚ) ^ (-(min x.k y.k)) = ((x.m * 2 ^ (x.k - y.k).toNat : ℕ) : ℚ) := by
  unfold F32.toRat
  rw [mul_assoc, ← zpow_add₀ (by norm_num : (2 : ℚ) ≠ 0)]
  have hk : x.k + -(min x.k y.k) = (((x.k - y.k).toNat : ℕ) : ℤ) := by omega
  rw [hk, zpow_natCast]
  push_cast
  ring

theorem F32.lt_iff (x y : F32) : x.lt y ↔ x.toRat < y.toRat := by
  have hpos : (0 : ℚ) < (2 : ℚ) ^ (-(min x.k y.k)) := by positivity
  have ex := F32.toRat_mul_shift x y
  have ey := F32.toRat_mul_shift y x
  rw [min_comm y.k x.k] at ey
  unfold F32.lt
  constructor
  · intro h
    have hQ : ((x.m * 2 ^ (x.k - y.k).toNat : ℕ) : ℚ)
        < ((y.m * 2 ^ (y.k - x.k).toNat : ℕ) : ℚ) := by exact_mod_cast h
    rw [← ex, ← ey] at hQ
    exact (mul_lt_mul_right hpos).mp hQ
  · intro h
    have hQ := (mul_lt_mul_right hpos).mpr h
    rw [ex, ey] at hQ
    exact_mod_cast hQ

theorem F32.m_pos (x : F32) (h : 0 < x.toRat) : 0 < x.m := by
  by_contra hc
  push_neg at hc
  have hz : x.m = 0 := by omega
  unfold F32.toRat at h
  rw [hz] at h
  simp at h

theorem F32.toRat_pos (x : F32) (h : 0 < x.m) : 0 < x.toRat := by
  unfold F32.toRat
  have hm : (0 : ℚ) < (x.m : ℚ) := by exact_mod_cast h
  positivity

theorem f32div_frac (x y : F32) :
    ((x.m * 2 ^ (x.k - y.k).toNat : ℕ) : ℚ) / ((y.m * 2 ^ (y.k - x.k).toNat : ℕ) : ℚ)
      = x.toRat / y.toRat := by
  have hpos : ((2 : ℚ) ^ (-(min x.k y.k))) ≠ 0 := by positivity
  have ex := F32.toRat_mul_shift x y
  have ey := F32.toRat_mul_shift y x
  rw [min_comm y.k x.k] at ey
  rw [← ex, ← ey, mul_div_mul_right _ _ hpos]

theorem f32mul_frac (x y : F32) :
    ((x.m * y.m * 2 ^ (x.k + y.k).toNat : ℕ) : ℚ) / ((2 ^ (-(x.k + y.k)).toNat : ℕ) : ℚ)
      = x.toRat * y.toRat := by
  unfold F32.toRat
  push_cast
  have hz := zpow_eq_toNat_div (x.k + y.k)
  calc ((x.m : ℚ) * (y.m : ℚ) * 2 ^ (x.k + y.k).toNat) / 2 ^ (-(x.k + y.k)).toNat
      = (x.m : ℚ) * (y.m : ℚ) * (2 ^ (x.k + y.k).toNat / 2 ^ (-(x.k + y.k)).toNat) := by
        ring
    _ = (x.m : ℚ) * (y.m : ℚ) * (2 : ℚ) ^ (x.k + y.k) := by rw [← hz]
    _ = (x.m : ℚ) * (2 : ℚ) ^ x.k * ((y.m : ℚ) * (2 : ℚ) ^ y.k) := by
        rw [zpow_add₀ (by norm_num : (2 : ℚ) ≠ 0)]
        ring

theorem f32ToU32_eq (x : F32) (n : ℕ) (h1 : (n : ℚ) ≤ x.toRat)
    (h2 : x.toRat < (n : ℚ) + 1) (h3 : n < 2 ^ 32) : f32ToU32 x = n := by
  have hfloor : (if 0 ≤ x.k then x.m * 2 ^ x.k.toNat else x.m / 2 ^ (-x.k).toNat) = n := by
    rcases le_or_lt 0 x.k with hk | hk
    · rw [if_pos hk]
      have hval : (((x.m * 2 ^ x.k.toNat : ℕ)) : ℚ) = x.toRat := by
        unfold F32.toRat
        push_cast
        rw [← zpow_natCast (2 : ℚ) x.k.toNat, Int.toNat_of_nonneg hk]
      have hlo : (n : ℚ) ≤ ((x.m * 2 ^ x.k.toNat : ℕ) : ℚ) := by rw [hval]; exact h1
      have hhi : ((x.m * 2 ^ x.k.toNat : ℕ) : ℚ) < (n : ℚ) + 1 := by rw [hval]; exact h2
      have hloN : n ≤ x.m * 2 ^ x.k.toNat := by exact_mod_cast hlo
      have hhiN : x.m * 2 ^ x.k.toNat < n + 1 := by exact_mod_cast hhi
      omega
    · rw [if_neg (by omega)]
      have hm : ((x.m : ℚ)) = x.toRat * 2 ^ (-x.k).toNat := by
        unfold F32.toRat
        rw [mul_assoc, ← zpow_natCast (2 : ℚ) (-x.k).toNat, ← zpow_add₀
          (by norm_num : (2 : ℚ) ≠ 0)]
        have hk0 : x.k + ((-x.k).toNat : ℤ) = 0 := by omega
        rw [hk0, zpow_zero, mul_one]
      have hplo : (n : ℚ) * 2 ^ (-x.k).toNat ≤ (x.m : ℚ) := by
        rw [hm]
        have : (0 : ℚ) ≤ 2 ^ (-x.k).toNat := by positivity
        exact mul_le_mul_of_nonneg_right h1 this
      have hphi : (x.m : ℚ) < ((n : ℚ) + 1) * 2 ^ (-x.k).toNat := by
        rw [hm]
        have : (0 : ℚ) < (2 : ℚ) ^ (-x.k).toNat := by positivity
        exact mul_lt_mul_of_pos_right h2 this
      have hloN : n * 2 ^ (-x.k).toNat ≤ x.m := by
        have : ((n * 2 ^ (-x.k).toNat : ℕ) : ℚ) ≤ (x.m : ℚ) := by push_cast; linarith
        exact_mod_cast this
      have hhiN : x.m < (n + 1) * 2 ^ (-x.k).toNat := by
        have : ((x.m : ℕ) : ℚ) < (((n + 1) * 2 ^ (-x.k).toNat : ℕ) : ℚ) := by
          push_cast
          linarith
        exact_mod_cast this
      have hp : 0 < 2 ^ (-x.k).toNat := Nat.pos_pow_of_pos _ (by norm_num)
      exact Nat.div_eq_of_lt_le hloN hhiN
  unfold f32ToU32
  rw [hfloor]
  omega

theorem frac_range_ub (C D : ℕ) (hD : 0 < D) (h : (C : ℚ) / D < 2 ^ 128) :
    C < D * 2 ^ 128 := by
  have hDQ : (0 : ℚ) < D := by exact_mod_cast hD
  rw [div_lt_iff hDQ] at h
  have h2 : (C : ℚ) < ((D * 2 ^ 128 : ℕ) : ℚ) := by push_cast; linarith
  exact_mod_cast h2

theorem frac_range_lb (C D : ℕ) (hD : 0 < D)
    (h : (1 : ℚ) / 2 ^ 128 ≤ (C : ℚ) / D) : D ≤ C * 2 ^ 128 := by
  have hDQ : (0 : ℚ) < D := by exact_mod_cast hD
  rw [div_le_div_iff (by norm_num : (0 : ℚ) < 2 ^ 128) hDQ] at h
  have h2 : ((D : ℕ) : ℚ) ≤ ((C * 2 ^ 128 : ℕ) : ℚ) := by push_cast; linarith
  exact_mod_cast h2

theorem f32div_le_f32div (x1 y1 x2 y2 : F32)
    (hx1 : 0 < x1.m) (hy1 : 0 < y1.m) (hx2 : 0 < x2.m) (hy2 : 0 < y2.m)
    (hub1 : x1.toRat / y1.toRat < 2 ^ 128) (hlb1 : (1 : ℚ) / 2 ^ 128 ≤ x1.toRat / y1.toRat)
    (hub2 : x2.toRat / y2.toRat < 2 ^ 128) (hlb2 : (1 : ℚ) / 2 ^ 128 ≤ x2.toRat / y2.toRat)
    (h : x1.toRat / y1.toRat ≤ x2.toRat / y2.toRat) :
    (f32div x1 y1).toRat ≤ (f32div x2 y2).toRat := by
  have hp1 : 0 < x1.m * 2 ^ (x1.k - y1.k).toNat :=
    Nat.mul_pos hx1 (Nat.pos_pow_of_pos _ (by norm_num))
  have hq1 : 0 < y1.m * 2 ^ (y1.k - x1.k).toNat :=
    Nat.mul_pos hy1 (Nat.pos_pow_of_pos _ (by norm_num))
  have hp2 : 0 < x2.m * 2 ^ (x2.k - y2.k).toNat :=
    Nat.mul_pos hx2 (Nat.pos_pow_of_pos _ (by norm_num))
  have hq2 : 0 < y2.m * 2 ^ (y2.k - x2.k).toNat :=
    Nat.mul_pos hy2 (Nat.pos_pow_of_pos _ (by norm_num))
  have hv1 := f32div_frac x1 y1
  have hv2 := f32div_frac x2 y2
  unfold f32div
  exact roundPosRat_mono _ _ _ _ hp1 hq1 hp2 hq2
    (frac_range_ub _ _ hq1 (by rw [hv1]; exact hub1))
    (frac_range_lb _ _ hq1 (by rw [hv1]; exact hlb1))
    (frac_range_ub _ _ hq2 (by rw [hv2]; exact hub2))
    (frac_range_lb _ _ hq2 (by rw [hv2]; exact hlb2))
    (by rw [hv1, hv2]; exact h)

theorem ratio_in_envelope (w h : ℕ) (hw : 0 < w) (hh : 0 < h)
    (hw24 : w ≤ 2 ^ 24) (hh24 : h ≤ 2 ^ 24)
    (hlo : (2 : ℚ) / 5 ≤ (w : ℚ) / h) (hhi : (w : ℚ) / h ≤ 5 / 2) :
    ¬ F32.lt (f32div (u32ToF32 w) (u32ToF32 h)) minAspect ∧
      ¬ F32.lt maxAspect (f32div (u32ToF32 w) (u32ToF32 h)) := by
  have hwr : (u32ToF32 w).toRat = w := roundPosRat_int w hw hw24
  have hhr : (u32ToF32 h).toRat = h := roundPosRat_int h hh hh24
  have h2r : (u32ToF32 2).toRat = 2 := roundPosRat_int 2 (by norm_num) (by norm_num)
  have h5r : (u32ToF32 5).toRat = 5 := roundPosRat_int 5 (by norm_num) (by norm_num)
  have hwm : 0 < (u32ToF32 w).m := F32.m_pos _ (by rw [hwr]; exact_mod_cast hw)
  have hhm : 0 < (u32ToF32 h).m := F32.m_pos _ (by rw [hhr]; exact_mod_cast hh)
  have h2m : 0 < (u32ToF32 2).m := F32.m_pos _ (by rw [h2r]; norm_num)
  have h5m : 0 < (u32ToF32 5).m := F32.m_pos _ (by rw [h5r]; norm_num)
  have hwh_pos : (0 : ℚ) < (w : ℚ) / h := by
    have hwQ : (0 : ℚ) < w := by exact_mod_cast hw
    have hhQ : (0 : ℚ) < h := by exact_mod_cast hh
    positivity
  constructor
  · rw [F32.lt_iff, not_lt]
    exact f32div_le_f32div (u32ToF32 2) (u32ToF32 5) (u32ToF32 w) (u32ToF32 h)
      h2m h5m hwm hhm
      (by rw [h2r, h5r]; norm_num) (by rw [h2r, h5r]; norm_num)
      (by rw [hwr, hhr]; linarith) (by rw [hwr, hhr]; linarith [hlo]; )
      (by rw [h2r, h5r, hwr, hhr]; exact hlo)
  · rw [F32.lt_iff, not_lt]
    exact f32div_le_f32div (u32ToF32 w) (u32ToF32 h) (u32ToF32 5) (u32ToF32 2)
      hwm hhm h5m h2m
      (by rw [hwr, hhr]; linarith) (by rw [hwr, hhr]; linarith [hlo]; )
      (by rw [h5r, h2r]; norm_num) (by rw [h5r, h2r]; norm_num)
      (by rw [h5r, h2r, hwr, hhr]; exact hhi)

theorem crop_to_aspect_ratio_eq_self (img : Img) (hh : img.height ≠ 0)
    (h1 : ¬ F32.lt (f32div (u32ToF32 img.width) (u32ToF32 img.height)) minAspect)
    (h2 : ¬ F32.lt maxAspect (f32div (u32ToF32 img.width) (u32ToF32 img.height))) :
    crop_to_aspect_ratio img = some img := by
  simp only [crop_to_aspect_ratio]
  rw [if_neg hh, if_neg h1, if_neg h2]

/-- C5 (amended): the pipeline is the identity on every already-trimmed
buffer whose dimensions are at most 2 ^ 24 and whose width/height ratio
lies inside [2/5, 5/2].  (Beyond 2 ^ 24 the f32 rounding of the
dimensions can move the computed ratio out of the envelope; see the
counterexample.) -/
theorem pipeline_idempotent_small (img : Img) (hw : 0 < img.width) (hh : 0 < img.height)
    (hw24 : img.width ≤ 2 ^ 24) (hh24 : img.height ≤ 2 ^ 24)
    (htrim : bboxRect img = ⟨0, 0, img.width, img.height⟩)
    (hlo : (2 : ℚ) / 5 ≤ (img.width : ℚ) / img.height)
    (hhi : (img.width : ℚ) / img.height ≤ 5 / 2) :
    pipelineModel img = some img := by
  have hrect : bboxLeft img = 0 ∧ bboxTop img = 0 ∧
      bboxRight img = img.width ∧ bboxBottom img = img.height := by
    unfold bboxRect at htrim
    rw [Rect.mk.injEq] at htrim
    exact ⟨htrim.1, htrim.2.1, htrim.2.2.1, htrim.2.2.2⟩
  obtain ⟨hL, hT, hR, hB⟩ := hrect
  have hte : crop_transparent_edges img = img :=
    crop_transparent_edges_eq_self img hT hB hL hR
  obtain ⟨hn1, hn2⟩ := ratio_in_envelope img.width img.height hw hh hw24 hh24 hlo hhi
  unfold pipelineModel
  rw [hte]
  exact crop_to_aspect_ratio_eq_self img (by omega) hn1 hn2

/-- The concrete buffer used to witness C5: a 2 by 2 fully opaque
buffer, already trimmed, with ratio 1. -/
def imgC5w : Img := ⟨2, 2, fun _ _ => 1⟩

theorem pipeline_idempotent_small_witness :
    (0 < imgC5w.width ∧ 0 < imgC5w.height ∧
        imgC5w.width ≤ 2 ^ 24 ∧ imgC5w.height ≤ 2 ^ 24 ∧
        bboxRect imgC5w = ⟨0, 0, imgC5w.width, imgC5w.height⟩ ∧
        (2 : ℚ) / 5 ≤ (imgC5w.width : ℚ) / imgC5w.height ∧
        (imgC5w.width : ℚ) / imgC5w.height ≤ 5 / 2) ∧
      pipelineModel imgC5w = some imgC5w :=
  ⟨⟨by decide, by decide, by decide, by decide, by decide,
      by norm_num [imgC5w], by norm_num [imgC5w]⟩,
    pipeline_idempotent_small imgC5w (by decide) (by decide) (by decide)
      (by decide) (by decide) (by norm_num [imgC5w]) (by norm_num [imgC5w])⟩

/-- The concrete buffer refuting C5 as stated: 13421785 by 33554462,
fully opaque (hence already trimmed), with rational ratio strictly
inside [2/5, 5/2]; the f32 ratio nevertheless falls below the f32
constant 2/5, the wrongly-entered narrow branch computes a new width one
larger than the width, and the u32 subtraction underflows (a panic), so
the pipeline does not return the input. -/
def imgC5 : Img := ⟨13421785, 33554462, fun _ _ => 1⟩

theorem pipeline_not_idempotent_cex :
    bboxRect imgC5 = ⟨0, 0, imgC5.width, imgC5.height⟩ ∧
      (2 : ℚ) / 5 ≤ (imgC5.width : ℚ) / imgC5.height ∧
      (imgC5.width : ℚ) / imgC5.height ≤ 5 / 2 ∧
      pipelineModel imgC5 = none := by
  obtain ⟨hT, hB, hL, hR⟩ := bbox_of_opaque imgC5 (by decide) (by decide)
    (fun x hx y hy => by simp [imgC5])
  refine ⟨?_, ?_, ?_, ?_⟩
  · unfold bboxRect
    rw [hT, hB, hL, hR]
  · show (2 : ℚ) / 5 ≤ (13421785 : ℚ) / 33554462
    norm_num
  · show (13421785 : ℚ) / 33554462 ≤ 5 / 2
    norm_num
  · unfold pipelineModel
    rw [crop_transparent_edges_eq_self imgC5 hT hB hL hR]
    rfl

/-- C10 (amended): a fully transparent buffer with positive dimensions
at most 2 ^ 24 and rational ratio inside [2/5, 5/2] passes through the
whole pipeline unchanged.  (Beyond 2 ^ 24 the aspect stage can panic on
such a buffer; see the counterexample.) -/
theorem transparent_pipeline_small (img : Img) (hw : 0 < img.width) (hh : 0 < img.height)
    (hw24 : img.width ≤ 2 ^ 24) (hh24 : img.height ≤ 2 ^ 24)
    (htr : ∀ x, x < img.width → ∀ y, y < img.height → img.alpha x y = 0)
    (hlo : (2 : ℚ) / 5 ≤ (img.width : ℚ) / img.height)
    (hhi : (img.width : ℚ) / img.height ≤ 5 / 2) :
    pipelineModel img = some img := by
  obtain ⟨hT, hB, hL, hR⟩ := bbox_of_transparent img htr
  have hte : crop_transparent_edges img = img :=
    crop_transparent_edges_eq_self img hT hB hL hR
  obtain ⟨hn1, hn2⟩ := ratio_in_envelope img.width img.height hw hh hw24 hh24 hlo hhi
  unfold pipelineModel
  rw [hte]
  exact crop_to_aspect_ratio_eq_self img (by omega) hn1 hn2

/-- The concrete buffer used to witness C10: 2 by 2, fully transparent,
ratio 1. -/
def imgC10w : Img := ⟨2, 2, fun _ _ => 0⟩

theorem transparent_pipeline_small_witness :
    (0 < imgC10w.width ∧ 0 < imgC10w.height ∧
        imgC10w.width ≤ 2 ^ 24 ∧ imgC10w.height ≤ 2 ^ 24 ∧
        (∀ x, x < imgC10w.width → ∀ y, y < imgC10w.height → imgC10w.alpha x y = 0) ∧
        (2 : ℚ) / 5 ≤ (imgC10w.width : ℚ) / imgC10w.height ∧
        (imgC10w.width : ℚ) / imgC10w.height ≤ 5 / 2) ∧
      pipelineModel imgC10w = some imgC10w :=
  ⟨⟨by decide, by decide, by decide, by decide, by decide,
      by norm_num [imgC10w], by norm_num [imgC10w]⟩,
    transparent_pipeline_small imgC10w (by decide) (by decide) (by decide)
      (by decide) (by decide) (by norm_num [imgC10w]) (by norm_num [imgC10w])⟩

/-- The concrete buffer refuting C10 as stated: fully transparent,
13421785 by 33554462 (rational ratio strictly inside the envelope); the
detection stage is a no-op as claimed, but the aspect stage panics on
the u32 underflow of its wrongly-entered narrow branch, so the pipeline
does not return the input. -/
def imgC10 : Img := ⟨13421785, 33554462, fun _ _ => 0⟩

theorem transparent_pipeline_cex :
    (∀ x, x < imgC10.width → ∀ y, y < imgC10.height → imgC10.alpha x y = 0) ∧
      (2 : ℚ) / 5 ≤ (imgC10.width : ℚ) / imgC10.height ∧
      (imgC10.width : ℚ) / imgC10.height ≤ 5 / 2 ∧
      pipelineModel imgC10 = none := by
  have htr : ∀ x, x < imgC10.width → ∀ y, y < imgC10.height → imgC10.alpha x y = 0 :=
    fun x _ y _ => rfl
  obtain ⟨hT, hB, hL, hR⟩ := bbox_of_transparent imgC10 htr
  refine ⟨htr, ?_, ?_, ?_⟩
  · show (2 : ℚ) / 5 ≤ (13421785 : ℚ) / 33554462
    norm_num
  · show (13421785 : ℚ) / 33554462 ≤ 5 / 2
    norm_num
  · unfold pipelineModel
    rw [crop_transparent_edges_eq_self imgC10 hT hB hL hR]
    rfl

/-! ### The narrow branch for small heights -/

theorem newWidth_small_height (h : ℕ) (hh : 0 < h) (hh21 : h ≤ 2 ^ 21) :
    f32ToU32 (f32mul (u32ToF32 h) minAspect) = 2 * h / 5 := by
  have hh24 : h ≤ 2 ^ 24 := le_trans hh21 (by norm_num)
  have hhr : (u32ToF32 h).toRat = h := roundPosRat_int h hh hh24
  have hhQ : (1 : ℚ) ≤ (h : ℚ) := by exact_mod_cast hh
  have hh21Q : (h : ℚ) ≤ 2097152 := by
    have hp : (2 : ℕ) ^ 21 = 2097152 := by norm_num
    exact_mod_cast hp ▸ hh21
  have hminval : minAspect.toRat = 13421773 / 2 ^ 25 := by
    have hm : minAspect = ⟨13421773, -25⟩ := by decide
    rw [hm]
    unfold F32.toRat
    rw [show ((-25 : ℤ)) = -((25 : ℕ) : ℤ) by norm_num, zpow_neg, zpow_natCast]
    norm_num
  have hmm : 0 < minAspect.m := by decide
  have hhm : 0 < (u32ToF32 h).m := F32.m_pos _ (by rw [hhr]; linarith)
  have hA : 0 < (u32ToF32 h).m * minAspect.m
      * 2 ^ ((u32ToF32 h).k + minAspect.k).toNat :=
    Nat.mul_pos (Nat.mul_pos hhm hmm) (Nat.pos_pow_of_pos _ (by norm_num))
  have hB : 0 < 2 ^ (-((u32ToF32 h).k + minAspect.k)).toNat :=
    Nat.pos_pow_of_pos _ (by norm_num)
  have hfracv : (((u32ToF32 h).m * minAspect.m
        * 2 ^ ((u32ToF32 h).k + minAspect.k).toNat : ℕ) : ℚ)
        / ((2 ^ (-((u32ToF32 h).k + minAspect.k)).toNat : ℕ) : ℚ)
      = (h : ℚ) * (13421773 / 2 ^ 25) := by
    have hv := f32mul_frac (u32ToF32 h) minAspect
    rw [hhr, hminval] at hv
    exact hv
  have hubQ : (((u32ToF32 h).m * minAspect.m
        * 2 ^ ((u32ToF32 h).k + minAspect.k).toNat : ℕ) : ℚ)
        / ((2 ^ (-((u32ToF32 h).k + minAspect.k)).toNat : ℕ) : ℚ) < 2 ^ 128 := by
    rw [hfracv]
    nlinarith [hh21Q, hhQ]
  have hlbQ : (1 : ℚ) / 2 ^ 128 ≤ (((u32ToF32 h).m * minAspect.m
        * 2 ^ ((u32ToF32 h).k + minAspect.k).toNat : ℕ) : ℚ)
        / ((2 ^ (-((u32ToF32 h).k + minAspect.k)).toNat : ℕ) : ℚ) := by
    rw [hfracv]
    nlinarith [hhQ]
  obtain ⟨hlow, hup⟩ := roundPosRat_bounds _ _ hA hB
    (frac_range_ub _ _ hB hubQ) (frac_range_lb _ _ hB hlbQ)
  rw [hfracv] at hlow hup
  -- the exact product lies within 1/80 above 2h/5 and is at most 2^20
  have hplo : (2 * h : ℚ) / 5 ≤ (h : ℚ) * (13421773 / 2 ^ 25) := by nlinarith [hhQ]
  have hphi : (h : ℚ) * (13421773 / 2 ^ 25) ≤ (2 * h : ℚ) / 5 + 1 / 80 := by
    nlinarith [hh21Q]
  have hpsmall : (h : ℚ) * (13421773 / 2 ^ 25) ≤ 2 ^ 20 := by nlinarith [hh21Q]
  have herr : (h : ℚ) * (13421773 / 2 ^ 25) / 2 ^ 24 ≤ 1 / 16 := by
    rw [div_le_div_iff (by norm_num : (0 : ℚ) < 2 ^ 24) (by norm_num : (0 : ℚ) < 16)]
    nlinarith [hpsmall]
  have herr0 : (0 : ℚ) ≤ (h : ℚ) * (13421773 / 2 ^ 25) / 2 ^ 24 := by positivity
  have hmod := Nat.div_add_mod (2 * h) 5
  have hr5 : 2 * h % 5 < 5 := Nat.mod_lt _ (by norm_num)
  have hsplit : (2 * h : ℚ) / 5 = ((2 * h / 5 : ℕ) : ℚ) + ((2 * h % 5 : ℕ) : ℚ) / 5 := by
    have hc : ((5 * (2 * h / 5) + 2 * h % 5 : ℕ) : ℚ) = ((2 * h : ℕ) : ℚ) := by
      exact_mod_cast congrArg (fun z : ℕ => ((z : ℕ) : ℚ)) hmod
    push_cast at hc ⊢
    linarith
  have hrQ : ((2 * h % 5 : ℕ) : ℚ) ≤ 4 := by exact_mod_cast by omega
  have hup2 : (f32mul (u32ToF32 h) minAspect).toRat < ((2 * h / 5 : ℕ) : ℚ) + 1 := by
    have : (f32mul (u32ToF32 h) minAspect).toRat
        ≤ (h : ℚ) * (13421773 / 2 ^ 25) + (h : ℚ) * (13421773 / 2 ^ 25) / 2 ^ 24 := hup
    have h45 : ((2 * h % 5 : ℕ) : ℚ) / 5 ≤ 4 / 5 := by linarith [hrQ]
    linarith [hphi, herr, hsplit]
  have hlow2 : ((2 * h / 5 : ℕ) : ℚ) ≤ (f32mul (u32ToF32 h) minAspect).toRat := by
    rcases Nat.eq_zero_or_pos (2 * h % 5) with hr0 | hrpos
    · -- exact multiple: compare with the exactly representable integer 2h/5
      have hn1 : 0 < 2 * h / 5 := by omega
      have hn24 : 2 * h / 5 ≤ 2 ^ 24 := by
        have hp : (2 : ℕ) ^ 21 = 2097152 := by norm_num
        have hp24 : (2 : ℕ) ^ 24 = 16777216 := by norm_num
        omega
      have hple : ((2 * h / 5 : ℕ) : ℚ) ≤ (h : ℚ) * (13421773 / 2 ^ 25) := by
        have hz : ((2 * h % 5 : ℕ) : ℚ) = 0 := by exact_mod_cast hr0
        linarith [hplo, hsplit]
      have hmono := roundPosRat_mono (2 * h / 5) 1 _ _ hn1 one_pos hA hB
        (by
          have hp24 : (2 : ℕ) ^ 24 = 16777216 := by norm_num
          have : (2 : ℕ) ^ 128 > 16777216 := by norm_num
          omega)
        (by
          have h128 : (1 : ℕ) ≤ 2 ^ 128 := by norm_num
          simpa using Nat.mul_le_mul hn1 h128)
        (frac_range_ub _ _ hB hubQ) (frac_range_lb _ _ hB hlbQ)
        (by rw [Nat.cast_one, div_one, hfracv]; exact hple)
      rw [roundPosRat_int (2 * h / 5) hn1 hn24] at hmono
      exact hmono
    · -- a strictly fractional product stays above its floor by 1/5 - 1/16
      have hr1 : (1 : ℚ) ≤ ((2 * h % 5 : ℕ) : ℚ) := by exact_mod_cast hrpos
      have h15 : (1 : ℚ) / 5 ≤ ((2 * h % 5 : ℕ) : ℚ) / 5 := by linarith
      have hlowm : (h : ℚ) * (13421773 / 2 ^ 25)
          - (h : ℚ) * (13421773 / 2 ^ 25) / 2 ^ 24
          ≤ (f32mul (u32ToF32 h) minAspect).toRat := hlow
      linarith [hlowm, hplo, hsplit, herr]
  have hn32 : 2 * h / 5 < 2 ^ 32 := by
    have hp : (2 : ℕ) ^ 21 = 2097152 := by norm_num
    have hp32 : (2 : ℕ) ^ 32 = 4294967296 := by norm_num
    omega
  exact f32ToU32_eq _ _ hlow2 hup2 hn32

theorem crop_to_aspect_ratio_narrow (img : Img) (hh : img.height ≠ 0)
    (h1 : F32.lt (f32div (u32ToF32 img.width) (u32ToF32 img.height)) minAspect) :
    crop_to_aspect_ratio img =
      if f32ToU32 (f32mul (u32ToF32 img.height) minAspect) ≤ img.width then
        some (crop img
          ((img.width - f32ToU32 (f32mul (u32ToF32 img.height) minAspect)) / 2) 0
          (f32ToU32 (f32mul (u32ToF32 img.height) minAspect)) img.height)
      else none := by
  simp only [crop_to_aspect_ratio]
  rw [if_neg hh, if_pos h1]

/-- C3 (amended): for positive dimensions with height at most 2 ^ 21 and
f32 ratio strictly below the f32 value of 2/5, the computed new width is
exactly floor(height * 2/5); when it is at most the width the result is
the full-height window horizontally centered by integer division, and
otherwise the u32 subtraction underflows (a panic).  For larger heights
the f32 product can exceed floor(height * 2/5); see the
counterexample. -/
theorem aspect_narrow_small_height (img : Img) (hw : 0 < img.width)
    (hh : 0 < img.height) (hh21 : img.height ≤ 2 ^ 21)
    (hbr : F32.lt (f32div (u32ToF32 img.width) (u32ToF32 img.height)) minAspect) :
    crop_to_aspect_ratio img =
      if 2 * img.height / 5 ≤ img.width then
        some (crop img ((img.width - 2 * img.height / 5) / 2) 0
          (2 * img.height / 5) img.height)
      else none := by
  rw [crop_to_aspect_ratio_narrow img (by omega) hbr,
    newWidth_small_height img.height hh hh21]

/-- The concrete buffer used to witness C3: 1 by 3, opaque. -/
def imgC3w : Img := ⟨1, 3, fun _ _ => 1⟩

theorem aspect_narrow_small_height_witness :
    (0 < imgC3w.width ∧ 0 < imgC3w.height ∧ imgC3w.height ≤ 2 ^ 21 ∧
        F32.lt (f32div (u32ToF32 imgC3w.width) (u32ToF32 imgC3w.height)) minAspect) ∧
      crop_to_aspect_ratio imgC3w =
        (if 2 * imgC3w.height / 5 ≤ imgC3w.width then
          some (crop imgC3w ((imgC3w.width - 2 * imgC3w.height / 5) / 2) 0
            (2 * imgC3w.height / 5) imgC3w.height)
        else none) :=
  ⟨⟨by decide, by decide, by decide, by decide⟩,
    aspect_narrow_small_height imgC3w (by decide) (by decide) (by decide) (by decide)⟩

/-- The buffers refuting C3 as stated.  At 6710891 by 16777227 the
narrow branch is entered and returns a window whose width is 6710891,
but floor(height * 2/5) is 6710890: the computed f32 width differs from
the claimed exact floor.  At 1 by 10485762 the narrow branch is entered
and the function panics on u32 underflow instead of returning the
claimed centered window. -/
def imgC3a : Img := ⟨6710891, 16777227, fun _ _ => 1⟩

/-- Companion input for the C3 counterexample: the claimed window cannot
be returned because the u32 subtraction underflows. -/
def imgC3b : Img := ⟨1, 10485762, fun _ _ => 1⟩

theorem aspect_narrow_newWidth_cex :
    (F32.lt (f32div (u32ToF32 imgC3a.width) (u32ToF32 imgC3a.height)) minAspect ∧
      (crop_to_aspect_ratio imgC3a).map Img.width = some 6710891 ∧
      2 * imgC3a.height / 5 = 6710890) ∧
    (F32.lt (f32div (u32ToF32 imgC3b.width) (u32ToF32 imgC3b.height)) minAspect ∧
      crop_to_aspect_ratio imgC3b = none) :=
  ⟨⟨by decide, by decide, by decide⟩, ⟨by decide, rfl⟩⟩

/-- The buffer giving C2's failing input: 251 by 100. -/
def imgC2 : Img := ⟨251, 100, fun _ _ => 1⟩

/-- C2: the claim fails on the code.  At width 251, height 100 the clamp
triggers (the f32 ratio 2.51 exceeds max_aspect), yet the returned
window is the full 251 by 100, whose width/height ratio lies outside
[2/5, 5/2]: the source shrinks the wrong dimension, so the computed new
height equals the full height and the crop is a no-op. -/
theorem aspect_envelope_violation :
    F32.lt maxAspect (f32div (u32ToF32 imgC2.width) (u32ToF32 imgC2.height)) ∧
      (crop_to_aspect_ratio imgC2).map (fun i => (i.width, i.height))
        = some (251, 100) ∧
      ¬ ((251 : ℚ) / 100 ≤ 5 / 2) :=
  ⟨by decide, by decide, by norm_num⟩

/-- The buffer giving C8's narrow-branch failing input: 10 by 100. -/
def imgC8a : Img := ⟨10, 100, fun _ _ => 1⟩

/-- The buffer giving C8's wide-branch failing input: 300 by 100. -/
def imgC8b : Img := ⟨300, 100, fun _ _ => 1⟩

/-- C8: the claim fails on the code: both branches can panic.  At 10 by
100 the narrow branch computes new_width 40 > 10 and the u32 subtraction
width - new_width underflows; at 300 by 100 the wide branch computes
new_height 120 > 100 and height - new_height underflows. -/
theorem aspect_underflow_panics :
    (F32.lt (f32div (u32ToF32 imgC8a.width) (u32ToF32 imgC8a.height)) minAspect ∧
      crop_to_aspect_ratio imgC8a = none) ∧
    (F32.lt maxAspect (f32div (u32ToF32 imgC8b.width) (u32ToF32 imgC8b.height)) ∧
      crop_to_aspect_ratio imgC8b = none) :=
  ⟨⟨by decide, rfl⟩, ⟨by decide, rfl⟩⟩

/-- C9: whenever the two-stage pipeline returns an image (no panic), the
result is no wider and no taller than the input. -/
theorem pipeline_shrinks (img out : Img) (h : pipelineModel img = some out) :
    out.width ≤ img.width ∧ out.height ≤ img.height := by
  have hmw : (crop_transparent_edges img).width ≤ img.width := by
    show bboxRight img - bboxLeft img ≤ img.width
    have := bboxRight_le_width img
    omega
  have hmh : (crop_transparent_edges img).height ≤ img.height := by
    show bboxBottom img - bboxTop img ≤ img.height
    have := bboxBottom_le_height img
    omega
  unfold pipelineModel at h
  set mid := crop_transparent_edges img with hmid
  simp only [crop_to_aspect_ratio] at h
  split_ifs at h with hz hw hnh hlo hnw hhi hnh2
  all_goals first
    | (obtain rfl := Option.some.inj h
       refine ⟨?_, ?_⟩ <;> (try dsimp only [crop]) <;> omega)
    | exact absurd h (by simp)

/-- The 1 by 1 opaque buffer used to witness C9. -/
def imgC9w : Img := ⟨1, 1, fun _ _ => 1⟩

theorem pipeline_shrinks_witness :
    pipelineModel imgC9w = some imgC9w ∧
      imgC9w.width ≤ imgC9w.width ∧ imgC9w.height ≤ imgC9w.height :=
  ⟨rfl, pipeline_shrinks imgC9w imgC9w rfl⟩

/-- C6: the batch driver returns success regardless of how many items
failed, and every failed item is reported with its path while the
remaining items are still processed. -/
theorem process_directory_isolates_failures
    (items : List (String × Except String Unit)) :
    process_directory items =
      Except.ok (items.filterMap fun it =>
        match it.2 with
        | Except.ok _ => none
        | Except.error e => some (report it.1 e)) := by
  unfold process_directory
  congr 1
  suffices hgen : ∀ (l : List (String × Except String Unit)) (acc : List String),
      l.foldl (fun acc it => match it.2 with
        | Except.ok _ => acc
        | Except.error e => acc ++ [report it.1 e]) acc
        = acc ++ l.filterMap (fun it => match it.2 with
            | Except.ok _ => none
            | Except.error e => some (report it.1 e)) by
    simpa using hgen items []
  intro l
  induction l with
  | nil => intro acc; simp
  | cons it rest ih =>
    intro acc
    obtain ⟨p, res⟩ := it
    cases res with
    | ok u => simp [List.foldl_cons, List.filterMap_cons, ih]
    | error e => simp [List.foldl_cons, List.filterMap_cons, ih]

end ImageCropper
